import Mathlib

/-!
Verification of the mirrox nutrition pipeline
(`ml_service/scripts/{openfoodfacts_to_json,usda_to_json,build_nutrition_db,search_food}.py`)
against its natural-language specification.

The Python scripts are shallowly embedded: strings are `String`/`List Char`,
Python floats are modelled as exact rationals `ℚ` (with an explicit NaN
constructor where the code tests `math.isnan`), dicts are association lists or
functions into `Option`, and JSON-ish dynamic values are small tagged unions.
Case mapping and the `\s`/`\w` character classes are modelled for ASCII, which
covers every input appearing in a theorem below.
-/

/-! ## Character and word helpers (Python `str.lower`, `strip`, `\s+` collapse) -/

/-- ASCII lower-casing of one character, as in Python `str.lower` restricted to
ASCII (`A`-`Z` map to `a`-`z`, everything else is unchanged). -/
def lowerC (c : Char) : Char :=
  if 65 ≤ c.toNat ∧ c.toNat ≤ 90 then Char.ofNat (c.toNat + 32) else c

/-- ASCII upper-casing of one character. -/
def upperC (c : Char) : Char :=
  if 97 ≤ c.toNat ∧ c.toNat ≤ 122 then Char.ofNat (c.toNat - 32) else c

/-- Whitespace test, Python's `\s` (ASCII part). -/
def isWS (c : Char) : Bool := c = ' ' ∨ c = '\t' ∨ c = '\n' ∨ c = '\r'

/-- ASCII digit test, Python's `\d` (ASCII part). -/
def isDigitC (c : Char) : Bool := 48 ≤ c.toNat ∧ c.toNat ≤ 57

/-- ASCII alphabetic test, `[A-Za-z]`. -/
def isAlphaC (c : Char) : Bool :=
  (65 ≤ c.toNat ∧ c.toNat ≤ 90) ∨ (97 ≤ c.toNat ∧ c.toNat ≤ 122)

/-- ASCII word-character test, Python's `\w` (ASCII part). -/
def isWordC (c : Char) : Bool := isAlphaC c ∨ isDigitC c ∨ c = '_'

/-- ASCII lower-case alphanumeric test, `[a-z0-9]`. -/
def isLowerAlnum (c : Char) : Bool :=
  (97 ≤ c.toNat ∧ c.toNat ≤ 122) ∨ isDigitC c

/-- Python `str.strip`: drop whitespace from both ends. -/
def trimWS (l : List Char) : List Char :=
  ((l.dropWhile isWS).reverse.dropWhile isWS).reverse

/-- Splitter into maximal whitespace-free words, with an accumulator holding the
(reversed) word currently being read.  `wordsGo [] l` is Python `l.split()`. -/
def wordsGo (cur : List Char) : List Char → List (List Char)
  | [] => if cur.isEmpty then [] else [cur.reverse]
  | c :: rest =>
      if isWS c then
        if cur.isEmpty then wordsGo [] rest else cur.reverse :: wordsGo [] rest
      else wordsGo (c :: cur) rest

/-- Python `s.split()`: maximal runs of non-whitespace characters. -/
def wordsOf (l : List Char) : List (List Char) := wordsGo [] l

/-- Join words with single spaces (Python `" ".join`). -/
def joinSp : List (List Char) → List Char
  | [] => []
  | [w] => w
  | w :: ws => w ++ ' ' :: joinSp ws

/-- Python `re.sub(r"\s+", " ", s.strip())`: collapse whitespace runs. -/
def collapseWS (l : List Char) : List Char := joinSp (wordsOf l)

/-- Lexicographic (code-point) comparison of character lists, Python `str <`. -/
def ltChars : List Char → List Char → Bool
  | [], [] => false
  | [], _ :: _ => true
  | _ :: _, [] => false
  | a :: as, b :: bs => if a < b then true else if b < a then false else ltChars as bs

/-- Stable insertion of `x` into a list sorted by the strict order `lt`:
`x` goes in front of the first element not strictly below it, so elements
comparing equal keep their original relative order. -/
def insBy (lt : α → α → Bool) (x : α) : List α → List α
  | [] => [x]
  | y :: ys => if lt y x then y :: insBy lt x ys else x :: y :: ys

/-- Stable sort by the strict order `lt` (same output as Python's stable
`sorted`/`list.sort` for a total key order). -/
def sortBy (lt : α → α → Bool) : List α → List α
  | [] => []
  | x :: xs => insBy lt x (sortBy lt xs)

/-- Deduplication keeping the first occurrence, with a seen-accumulator
(Python's `seen = set()` loop). -/
def dedupFirstGo [DecidableEq α] (seen : List α) : List α → List α
  | [] => []
  | x :: xs => if x ∈ seen then dedupFirstGo seen xs else x :: dedupFirstGo (x :: seen) xs

/-- Deduplication keeping the first occurrence of each element. -/
def dedupFirst [DecidableEq α] (l : List α) : List α := dedupFirstGo [] l

/-! ## Python numeric values and `to_float`
(`openfoodfacts_to_json.py`, lines 156-169) -/

/-- A raw value found in a source record: a number, a float NaN, or a string.
Python floats are modelled as exact rationals. -/
inductive NutrVal where
  | nnum (q : ℚ)
  | nnan
  | nstr (s : String)
deriving DecidableEq, Repr

/-- `NON_NUMERIC_RE = re.compile(r"[^\d.\-]+")` used as `sub("", s)`: keep only
digits, dots and minus signs. -/
def numFilter (l : List Char) : List Char :=
  l.filter fun c => isDigitC c ∨ c = '.' ∨ c = '-'

/-- Digits to a natural number. -/
def digitsToNat : List Char → Nat
  | [] => 0
  | c :: r => digitsToNat r + (c.toNat - 48) * 10 ^ r.length

/-- Python `float()` on a string made only of digits, `.` and `-` (the alphabet
left by `NON_NUMERIC_RE`): an optional leading minus, then digits with at most
one dot and at least one digit.  Anything else raises, i.e. yields `none`. -/
def parsePyFloat (l : List Char) : Option ℚ :=
  let (neg, body) := match l with
    | '-' :: t => (true, t)
    | _ => (false, l)
  let ip := body.takeWhile isDigitC
  let rest := body.dropWhile isDigitC
  let val : Option ℚ :=
    match rest with
    | [] => if ip.isEmpty then none else some (digitsToNat ip)
    | '.' :: frac =>
        if frac.all isDigitC ∧ ¬ (ip.isEmpty ∧ frac.isEmpty) then
          some ((digitsToNat ip : ℚ) + (digitsToNat frac : ℚ) / 10 ^ frac.length)
        else none
    | _ => none
  val.map fun q => if neg then -q else q

/-- `to_float` (`openfoodfacts_to_json.py` 156-169): `None` stays `None`,
numbers pass through unless NaN, strings are stripped, run through
`NON_NUMERIC_RE` and parsed; any failure yields `None`. -/
def to_float : Option NutrVal → Option ℚ
  | none => none
  | some (NutrVal.nnum q) => some q
  | some NutrVal.nnan => none
  | some (NutrVal.nstr s) =>
      let t := trimWS s.data
      if t.isEmpty then none else parsePyFloat (numFilter t)

/-! ## Nutrient extraction (`openfoodfacts_to_json.py`, lines 172-195) -/

/-- A raw `nutriments` mapping: source key to raw value. -/
def NutrMap : Type := String → Option NutrVal

/-- First of the kilojoule keys that coerces to a number
(the `for key in (...)` loop at lines 177-182). -/
def kjLookup (m : NutrMap) : Option ℚ :=
  match to_float (m "energy-kj_100g") with
  | some v => some v
  | none =>
  match to_float (m "energy_100g") with
  | some v => some v
  | none =>
  match to_float (m "energy-kj_value") with
  | some v => some v
  | none => to_float (m "energy")

/-- `energy_from_nutriments`: direct kcal fields take priority; otherwise a
kilojoule value is converted with the factor 0.239005736. -/
def energy_from_nutriments (m : NutrMap) : Option ℚ :=
  match to_float (m "energy-kcal_100g") with
  | some v => some v
  | none =>
  match to_float (m "energy-kcal_value") with
  | some v => some v
  | none =>
  match to_float (m "energy-kcal") with
  | some v => some v
  | none =>
  match kjLookup m with
  | some kj => some (kj * (239005736 / 1000000000 : ℚ))
  | none => none

/-- `SALT_TO_SODIUM = 393.66` (mg sodium per gram of salt). -/
def SALT_TO_SODIUM : ℚ := 39366 / 100

/-- `sodium_from_nutriments`: a direct `sodium_100g` value (grams) is scaled to
mg; otherwise `salt_100g` is converted with `SALT_TO_SODIUM`. -/
def sodium_from_nutriments (m : NutrMap) : Option ℚ :=
  match to_float (m "sodium_100g") with
  | some v => some (v * 1000)
  | none =>
  match to_float (m "salt_100g") with
  | some v => some (v * SALT_TO_SODIUM)
  | none => none

/-! ## `classify` (`search_food.py`, lines 8-43) -/

/-- The eight-field nutrient record handed to `classify`; each field is null, a
float NaN, or a number (`classify`'s `get` collapses null and NaN to `None`). -/
structure Nutr8 where
  energy_kcal : NutrVal := NutrVal.nnan
  protein_g : NutrVal := NutrVal.nnan
  fat_g : NutrVal := NutrVal.nnan
  sat_fat_g : NutrVal := NutrVal.nnan
  carb_g : NutrVal := NutrVal.nnan
  sugar_g : NutrVal := NutrVal.nnan
  fiber_g : NutrVal := NutrVal.nnan
  sodium_mg : NutrVal := NutrVal.nnan
deriving Repr

/-- `classify`'s inner `get`: `None` and NaN become `None`, numbers survive. -/
def getNum : NutrVal → Option ℚ
  | NutrVal.nnum q => some q
  | NutrVal.nnan => none
  | NutrVal.nstr _ => none

/-- Result of `classify`. -/
structure ClassifyResult where
  tags : List String
  unknown : List String
deriving DecidableEq, Repr

/-- The `tags.append` contribution of one threshold rule of `classify`. -/
def tagIf (o : Option ℚ) (thr : ℚ → Prop) [DecidablePred thr] (name : String) :
    List String :=
  match o with
  | none => []
  | some s => if thr s then [name] else []

/-- The `unk.append` contribution of one nullable field. -/
def unkIf (o : Option ℚ) (name : String) : List String :=
  match o with
  | none => [name]
  | some _ => []

/-- The four threshold tags, in the fixed order the code appends them. -/
def baseTags (s f b d : Option ℚ) : List String :=
  tagIf s (fun q => 20 < q) "High Sugar" ++ tagIf f (fun q => 17 < q) "High Fat" ++
    tagIf b (fun q => q < 3) "Low Fiber" ++ tagIf d (fun q => 600 < q) "High Sodium"

/-- The `unknown` field names, in the fixed order the code appends them. -/
def unkFields (s f b d : Option ℚ) : List String :=
  unkIf s "sugar_g" ++ unkIf f "fat_g" ++ unkIf b "fiber_g" ++ unkIf d "sodium_mg"

/-- `classify` (`search_food.py` 8-43): threshold tags in the fixed order
sugar, fat, fiber, sodium; null fields are reported in `unknown` instead;
`"Unbalanced"` is appended when at least two tags fired.  The unused
`strategy` parameter is dropped. -/
def classify (n : Nutr8) : ClassifyResult :=
  let sugar := getNum n.sugar_g
  let fat := getNum n.fat_g
  let fiber := getNum n.fiber_g
  let sodium := getNum n.sodium_mg
  let tags :=
    (match sugar with
     | none => []
     | some s => if 20 < s then ["High Sugar"] else []) ++
    (match fat with
     | none => []
     | some s => if 17 < s then ["High Fat"] else []) ++
    (match fiber with
     | none => []
     | some s => if s < 3 then ["Low Fiber"] else []) ++
    (match sodium with
     | none => []
     | some s => if 600 < s then ["High Sodium"] else [])
  let unk :=
    (match sugar with
     | none => ["sugar_g"]
     | some _ => []) ++
    (match fat with
     | none => ["fat_g"]
     | some _ => []) ++
    (match fiber with
     | none => ["fiber_g"]
     | some _ => []) ++
    (match sodium with
     | none => ["sodium_mg"]
     | some _ => [])
  { tags := if 2 ≤ tags.length then tags ++ ["Unbalanced"] else tags
    unknown := unk }

/-! ## `search_food` (`search_food.py`, lines 46-82) -/

/-- One row of the `foods` table (columns beyond those used by the query logic
are irrelevant to search and omitted; `short_name` is nullable). -/
structure FoodRow where
  id : String
  name : String
  short_name : Option String
deriving DecidableEq, Repr

/-- The catalog: the `foods` table and the `alias` table, each in rowid order.
`alias` rows are `(alias, food_id)`. -/
structure Catalog where
  foods : List FoodRow
  aliasRows : List (String × String)
deriving Repr

/-- SQLite `LIKE` matching (case-insensitive on ASCII, `%` matches any
sequence, `_` any single character), fuelled to stay structurally recursive. -/
def likeGo : Nat → List Char → List Char → Bool
  | 0, _, _ => false
  | _ + 1, [], s => s.isEmpty
  | fuel + 1, p :: ps, s =>
      if p = '%' then
        likeGo fuel ps s || (match s with
          | [] => false
          | _ :: s' => likeGo fuel (p :: ps) s')
      else
        match s with
        | [] => false
        | c :: s' => (p = '_' || lowerC c = lowerC p) && likeGo fuel ps s'

/-- SQLite `x LIKE pattern`. -/
def likeMatch (pat : String) (s : String) : Bool :=
  likeGo (pat.data.length + s.data.length + 1) pat.data s.data

/-- The tier-C predicate: `name LIKE %q% OR short_name LIKE %q%`
(`NULL LIKE ...` is not true in SQL). -/
def likeRow (f : FoodRow) (q : String) : Bool :=
  let pat : String := ⟨'%' :: q.data ++ ['%']⟩
  likeMatch pat f.name ||
    (match f.short_name with
     | some sn => likeMatch pat sn
     | none => false)

/-- Query normalization in `search_food`: `q.strip().lower()`. -/
def normQuery (q : String) : String := ⟨(trimWS q.data).map lowerC⟩

/-- Tier B row set: exact match on `name` or `short_name`, in catalog order. -/
def exactTier (db : Catalog) (q : String) : List FoodRow :=
  db.foods.filter fun f => f.name = q ∨ f.short_name = some q

/-- Tier C row set: substring (`LIKE`) match, in catalog order. -/
def substrTier (db : Catalog) (q : String) : List FoodRow :=
  db.foods.filter fun f => likeRow f q

/-- `search_food` (`search_food.py` 46-82): alias lookup first (returning the
single referenced food, or nothing when the `food_id` is dangling), then exact
name/short-name matches up to `limit`, then `LIKE` matches up to `limit`. -/
def search_food (db : Catalog) (q : String) (limit : Nat) : List FoodRow :=
  let qn := normQuery q
  match db.aliasRows.find? (fun e => e.1 = qn) with
  | some e =>
      match db.foods.find? (fun f => f.id = e.2) with
      | some f => [f]
      | none => []
  | none =>
      let rowsB := (exactTier db qn).take limit
      if rowsB.isEmpty then (substrTier db qn).take limit else rowsB

/-! ## USDA numeric coercion (`usda_to_json.py`, lines 126-135) -/

/-- A pandas cell for one nutrient column of the pivoted USDA frame: absent
(`row.get` default) or present as a float, possibly NaN. -/
inductive UVal where
  | unum (q : ℚ)
  | unan
deriving DecidableEq, Repr

/-- `float(row.get(key, 0) or 0)` (`usda_to_json.py` 127-134): an absent key
falls back to `0`; `or 0` maps a falsy (zero) value to `0` and keeps anything
else, NaN included (NaN is truthy in Python). -/
def usdaNutrient (row : String → Option UVal) (key : String) : UVal :=
  let v := match row key with
    | none => UVal.unum 0
    | some x => x
  match v with
  | UVal.unum q => if q = 0 then UVal.unum 0 else UVal.unum q
  | UVal.unan => UVal.unan

/-! ## Generic run splitting (regex helpers) -/

/-- Splitter into maximal runs of characters satisfying `keep`, with an
accumulator holding the (reversed) run currently being read. -/
def runsGo (keep : Char → Bool) (cur : List Char) : List Char → List (List Char)
  | [] => if cur.isEmpty then [] else [cur.reverse]
  | c :: rest =>
      if keep c then runsGo keep (c :: cur) rest
      else if cur.isEmpty then runsGo keep [] rest
      else cur.reverse :: runsGo keep [] rest

/-- Maximal runs of characters satisfying `keep` (e.g. `re.findall` of a
one-class pattern, or `str.split()` for `keep = not whitespace`). -/
def runsOf (keep : Char → Bool) (l : List Char) : List (List Char) := runsGo keep [] l

/-- Replace each maximal run of characters satisfying `bad` by a single space
(`re.sub(r"[...]+", " ", s)`), fuelled to stay structurally recursive. -/
def subRunsGo (bad : Char → Bool) : Nat → List Char → List Char
  | 0, l => l
  | _ + 1, [] => []
  | f + 1, c :: r =>
      if bad c then ' ' :: subRunsGo bad f (r.dropWhile bad)
      else c :: subRunsGo bad f r

/-- Replace each maximal run of `bad` characters by a single space. -/
def subRuns (bad : Char → Bool) (l : List Char) : List Char := subRunsGo bad l.length l

/-- Python `s.split(sep)` for a one-character separator (keeps empty pieces). -/
def splitGo (sep : Char) (cur : List Char) : List Char → List (List Char)
  | [] => [cur.reverse]
  | c :: rest => if c = sep then cur.reverse :: splitGo sep [] rest else splitGo sep (c :: cur) rest

/-- Python `s.split(sep)` for a one-character separator. -/
def splitOnC (sep : Char) (l : List Char) : List (List Char) := splitGo sep [] l

/-- Everything after the first occurrence of `sep` (Python `s.split(sep, 1)[1]`,
meaningful when `sep ∈ l`). -/
def afterChar (sep : Char) (l : List Char) : List Char :=
  (l.dropWhile fun c => c ≠ sep).drop 1

/-! ## Portion parsing (`openfoodfacts_to_json.py`, lines 463-559) -/

/-- A `default_portion` value: a unit label with a gram and/or millilitre
amount (`convert_amount` sets exactly one of the two). -/
structure Portion where
  unit : String
  grams : Option ℚ := none
  ml : Option ℚ := none
deriving DecidableEq, Repr

/-- Round half to even (Python's `round`) to an integer. -/
def halfEven (x : ℚ) : ℤ :=
  let f := ⌊x⌋
  let d := x - f
  if d < 1 / 2 then f else if 1 / 2 < d then f + 1 else if f % 2 = 0 then f else f + 1

/-- Python `round(x, 2)`. -/
def round2 (x : ℚ) : ℚ := (halfEven (x * 100) : ℚ) / 100

/-- `round_amount` (lines 463-467): round to 2 decimals, and snap to an integer
when within `1e-6` of one. -/
def round_amount (v : ℚ) : ℚ :=
  let r := round2 v
  let n := halfEven r
  if |r - (n : ℚ)| < 1 / 1000000 then (n : ℚ) else r

/-- `convert_amount` (lines 470-504): normalize the unit token, convert to the
canonical sub-unit (ml or grams), reject non-positive amounts. -/
def convert_amount (value : Option ℚ) (unit : Option String) (unit_name : String) :
    Option Portion :=
  match value, unit with
  | some v, some u =>
      let un : String := ⟨(trimWS u.data).map lowerC⟩
      if un = "" then none else
      let conv : Option (ℚ × Bool) :=
        if un ∈ ["ml", "milliliter", "milliliters", "millilitre", "millilitres"] then
          some (v, true)
        else if un ∈ ["l", "liter", "liters", "litre", "litres"] then some (v * 1000, true)
        else if un = "cl" then some (v * 10, true)
        else if un = "dl" then some (v * 100, true)
        else if un ∈ ["g", "gram", "grams"] then some (v, false)
        else if un ∈ ["kg", "kilogram", "kilograms"] then some (v * 1000, false)
        else none
      match conv with
      | none => none
      | some (a, isMl) =>
          if a ≤ 0 then none
          else if isMl then some { unit := unit_name, ml := some (round_amount a) }
          else some { unit := unit_name, grams := some (round_amount a) }
  | _, _ => none

/-- The ordered unit alternatives of `MEASURE_PATTERN`
(`ml|milliliters?|millilitres?|l|liters?|litres?|cl|dl|g|grams?|kg|kilograms?`,
with each greedy `s?` expanded longest-first, as the regex engine tries them). -/
def MEASURE_UNITS : List String :=
  ["ml", "milliliters", "milliliter", "millilitres", "millilitre",
   "l", "liters", "liter", "litres", "litre", "cl", "dl",
   "g", "grams", "gram", "kg", "kilograms", "kilogram"]

/-- Try the unit alternatives of `MEASURE_PATTERN` at the head of `l`
(case-insensitive literal match followed by a `\b` word boundary). -/
def unitAt (l : List Char) : Option String :=
  MEASURE_UNITS.find? fun lit =>
    decide (((l.take lit.data.length).map lowerC) = lit.data) &&
      match (l.drop lit.data.length).head? with
      | none => true
      | some c => ! isWordC c

/-- Try `MEASURE_PATTERN` anchored at the head of `l`: greedy digits, an
optional greedy `[.,]`-fraction (with regex backtracking: the fractional
candidate is tried before the bare-integer one), greedy `\s*`, then a unit
alternative.  Returns the value text and the matched unit (lower-cased). -/
def matchMeasureAt (l : List Char) : Option (List Char × String) :=
  let ds := l.takeWhile isDigitC
  if ds.isEmpty then none else
  let rest := l.dropWhile isDigitC
  let cands : List (List Char × List Char) :=
    match rest with
    | c :: r =>
        if (c = '.' ∨ c = ',') ∧ ¬ (r.takeWhile isDigitC).isEmpty then
          [(ds ++ c :: r.takeWhile isDigitC, r.dropWhile isDigitC), (ds, rest)]
        else [(ds, rest)]
    | [] => [(ds, [])]
  cands.firstM fun cand =>
    match unitAt (cand.2.dropWhile isWS) with
    | some lit => some (cand.1, lit)
    | none => none

/-- Leftmost `MEASURE_PATTERN` match (`finditer` + `matches[0]`): scan start
positions left to right; returns (text before the match, value text, unit). -/
def scanMeasureGo (acc : List Char) : List Char → Option (List Char × List Char × String)
  | [] => none
  | c :: rest =>
      match matchMeasureAt (c :: rest) with
      | some (v, u) => some (acc.reverse, v, u)
      | none => scanMeasureGo (c :: acc) rest

/-- `PORTION_UNIT_STOPWORDS = {"per", "of", "the", "a", "an", "x"}`. -/
def PORTION_UNIT_STOPWORDS : List String := ["per", "of", "the", "a", "an", "x"]

/-- `parse_portion_string` (lines 507-534): find the first measure in the text,
parse its value, derive the unit label from the alphabetic words before the
match (parentheses blanked, filler words dropped, last word wins) falling back
to `default_unit`, and convert. -/
def parse_portion_string (text : Option String) (default_unit : String) : Option Portion :=
  match text with
  | none => none
  | some t =>
      let cleaned := trimWS t.data
      if cleaned.isEmpty then none else
      match scanMeasureGo [] cleaned with
      | none => none
      | some (pre, vstr, unitLit) =>
          let vdot := vstr.map fun c => if c = ',' then '.' else c
          let value := to_float (some (NutrVal.nstr ⟨vdot⟩))
          let preSub := pre.map fun c => if c = '(' ∨ c = ')' then ' ' else c
          let words :=
            ((runsOf isAlphaC preSub).map fun w => (⟨w.map lowerC⟩ : String)).filter
              fun w => w ∉ PORTION_UNIT_STOPWORDS
          let unit_name := match words.getLast? with
            | some w => w
            | none => default_unit
          convert_amount value (some unitLit) unit_name

/-! ## Category normalization and the resolver
(`openfoodfacts_to_json.py`, lines 92-114 and 293-425) -/

/-- `CATEGORY_SEEDS` (lines 92-102). -/
def CATEGORY_SEEDS : List String :=
  ["beverage", "snack", "sauce", "canned fish", "grocery", "noodle", "curry",
   "burger", "other"]

/-- `CATEGORY_STOPWORDS` (lines 103-114). -/
def CATEGORY_STOPWORDS : List String :=
  ["food", "foods", "product", "products", "other", "miscellaneous", "various",
   "and", "ready", "prepared"]

/-- `singularize_token` (lines 293-300): `..ies → ..y`, `..ses → ..s`, and a
plain trailing `s` dropped on tokens longer than 3 characters. -/
def singularize_token (t : String) : String :=
  if ("ies".data).isSuffixOf t.data ∧ 3 < t.data.length then
    ⟨t.data.take (t.data.length - 3) ++ ['y']⟩
  else if ("ses".data).isSuffixOf t.data ∧ 3 < t.data.length then
    ⟨t.data.take (t.data.length - 2)⟩
  else if ("s".data).isSuffixOf t.data ∧ 3 < t.data.length then
    ⟨t.data.take (t.data.length - 1)⟩
  else t

/-- `normalize_category_value` (lines 303-313): strip+lower, drop a language
prefix (up to the first colon), separators to spaces, non-alphanumerics to
spaces, collapse whitespace; empty results become `None`.  (The `lru_cache`
memoization of this pure function is semantically transparent and omitted.) -/
def normalize_category_value (value : String) : Option String :=
  let raw := (trimWS value.data).map lowerC
  if raw.isEmpty then none else
  let raw := if ':' ∈ raw then afterChar ':' raw else raw
  let raw := raw.map fun c => if c = '-' ∨ c = '/' ∨ c = '&' then ' ' else c
  let raw := subRuns (fun c => ¬ (isLowerAlnum c ∨ isWS c)) raw
  let raw := collapseWS raw
  if raw.isEmpty then none else some ⟨raw⟩

/-- `tokenize_category` (lines 316-325): split on whitespace, drop stopwords,
singularize, keep non-empty tokens. -/
def tokenize_category (norm : String) : List String :=
  (wordsOf norm.data).filterMap fun part =>
    let ps : String := ⟨part⟩
    if ps ∈ CATEGORY_STOPWORDS then none
    else
      let token := singularize_token ps
      if token = "" then none else some token

/-- `canonical_category_slug` (lines 328-331). -/
def canonical_category_slug (norm : String) (tokens : List String) : String :=
  match tokens with
  | [] => ⟨norm.data.map fun c => if c = ' ' then '_' else c⟩
  | t :: ts => ⟨(List.foldl (fun acc w => acc ++ '_' :: w.data) t.data ts)⟩

/-- Association-list lookup (first binding wins; the Python dicts modelled here
have unique keys). -/
def lookupA (l : List (String × α)) (k : String) : Option α :=
  (l.find? fun e => e.1 = k).map fun e => e.2

/-- Python dict assignment `d[k] = v`: replace in place, or append a new
binding (insertion order preserved). -/
def insertA (k : String) (v : α) : List (String × α) → List (String × α)
  | [] => [(k, v)]
  | (k0, v0) :: r => if k0 = k then (k0, v) :: r else (k0, v0) :: insertA k v r

/-- Python `set.update`: add the elements of `ts` not already present, keeping
the receiver's elements in place. -/
def unionL (a ts : List String) : List String :=
  ts.foldl (fun acc t => if t ∈ acc then acc else acc ++ [t]) a

/-- `self.category_tokens[category].update(ts)`: union into the set stored at
`cat` (no-op when absent, which the resolver's invariants rule out). -/
def updToks (cat : String) (ts : List String) : List (String × List String) →
    List (String × List String)
  | [] => []
  | (c, s) :: r => if c = cat then (c, unionL s ts) :: r else (c, s) :: updToks cat ts r

/-- `CategoryResolver` state: `slug_to_category` and `category_tokens`, both
insertion-ordered dicts; token sets are duplicate-free lists.  (The
`_candidate_cache` memoizes only pure candidate normalization and is
semantically transparent, so it is not part of the state.) -/
structure RState where
  s2c : List (String × String)
  ctoks : List (String × List String)
deriving DecidableEq, Repr

/-- `self.category_tokens.get(category, set())`. -/
def catTokensOf (st : RState) (cat : String) : List String :=
  (lookupA st.ctoks cat).getD []

/-- `_register_new` (lines 360-365): the slug becomes its own category;
`setdefault(category, set()).update(tokens)`. -/
def registerNewCat (st : RState) (slug : String) (tokens : List String) :
    String × RState :=
  let ts := dedupFirst tokens
  let ctoks' := match lookupA st.ctoks slug with
    | some _ => updToks slug ts st.ctoks
    | none => st.ctoks ++ [(slug, ts)]
  (slug, { s2c := insertA slug slug st.s2c, ctoks := ctoks' })

/-- One candidate against one existing `(slug, category)` entry: the body of
`_match_existing`'s loop (lines 372-386). -/
def entryHit (st : RState) (ts : List String) (core : Option String) (cat : String) : Bool :=
  let ets := catTokensOf st cat
  let coreHit := match core with
    | some c => c ∈ ets
    | none => false
  let ov := (ts.filter fun t => t ∈ ets).length
  let mn := min ts.length ets.length
  let mx := max ts.length ets.length
  coreHit || (decide (ov ≠ 0) && (decide (ov = mn) || (decide (mx ≠ 0) && decide (3 * mx ≤ 5 * ov))))

/-- The loop of `_match_existing` over the (insertion-ordered) entries of
`slug_to_category`: on the first hit, record the new slug and grow the
category's token set. -/
def matchLoop (st : RState) (slug : String) (ts : List String) (core : Option String) :
    List (String × String) → Option (String × RState)
  | [] => none
  | (_, cat) :: rest =>
      if entryHit st ts core cat then
        some (cat, { s2c := insertA slug cat st.s2c, ctoks := updToks cat ts st.ctoks })
      else matchLoop st slug ts core rest

/-- `_match_existing` (lines 367-387): an exact slug hit returns its category
unchanged; otherwise the candidate's token set is compared against every
category (last-token membership, full containment, or ≥ 0.6 overlap ratio;
the float threshold `0.6` is modelled as the exact rational 3/5, which agrees
with the double comparison on all small integer ratios). -/
def matchExisting (st : RState) (slug : String) (tokens : List String) :
    Option (String × RState) :=
  match lookupA st.s2c slug with
  | some cat => some (cat, st)
  | none => matchLoop st slug (dedupFirst tokens) tokens.getLast? st.s2c

/-- Normalize one raw candidate to `(slug, tokens)`; `none` when unusable
(the cache-filling block of `resolve`, lines 396-408). -/
def candInfo (raw : String) : Option (String × List String) :=
  match normalize_category_value raw with
  | none => none
  | some norm =>
      let tokens := tokenize_category norm
      if tokens.isEmpty then none
      else some (canonical_category_slug norm tokens, tokens)

/-- Drop candidates whose slug was already seen (the `seen` set in `resolve`),
keeping first occurrences in order. -/
def dedupBySlugGo (seen : List String) :
    List (String × List String) → List (String × List String)
  | [] => []
  | c :: cs =>
      if c.1 ∈ seen then dedupBySlugGo seen cs
      else c :: dedupBySlugGo (c.1 :: seen) cs

/-- The sort key order of `resolve` (line 419): ascending by
`(token count, slug length)`, strict part for the stable sort. -/
def candLt (a b : String × List String) : Bool :=
  a.2.length < b.2.length ∨ (a.2.length = b.2.length ∧ a.1.data.length < b.1.data.length)

/-- The matching loop of `resolve` (lines 420-423): first candidate that
matches an existing category wins. -/
def resolveLoop (st : RState) : List (String × List String) → Option (String × RState)
  | [] => none
  | (slug, tokens) :: rest =>
      match matchExisting st slug tokens with
      | some hit => some hit
      | none => resolveLoop st rest

/-- `CategoryResolver.resolve` (lines 389-425): normalize and deduplicate the
candidates, sort them stably by specificity, return the first match against an
existing category, else register the most specific candidate as a new
category; returns `None` (and leaves the state unchanged) when no candidate is
usable. -/
def resolveCat (st : RState) (raws : List String) : Option String × RState :=
  let processed := dedupBySlugGo [] (raws.filterMap candInfo)
  match sortBy candLt processed with
  | [] => (none, st)
  | best :: rest =>
      match resolveLoop st (best :: rest) with
      | some (cat, st') => (some cat, st')
      | none =>
          let (cat, st') := registerNewCat st best.1 best.2
          (some cat, st')

/-- `_register_seed` (lines 346-358). -/
def registerSeed (st : RState) (name : String) : RState :=
  match normalize_category_value name with
  | none => st
  | some norm =>
      let tokens := tokenize_category norm
      if tokens.isEmpty then st
      else
        let slug := canonical_category_slug norm tokens
        match lookupA st.s2c slug with
        | some cat => { st with ctoks := updToks cat (dedupFirst tokens) st.ctoks }
        | none => (registerNewCat st slug tokens).2

/-- `CategoryResolver(CATEGORY_SEEDS)`: the state at the start of a run. -/
def initResolver : RState := CATEGORY_SEEDS.foldl registerSeed { s2c := [], ctoks := [] }

/-! ## Raw product model and record extraction
(`openfoodfacts_to_json.py`, lines 198-290, 428-460, 562-672) -/

/-- A raw OpenFoodFacts product line, typed at the boundary: each field is
`none` when absent from the JSON object or not of the type the corresponding
`isinstance` guard accepts.  Numeric-or-string fields fed to `to_float` are
`Option NutrVal`; the nutriments dict is an association list. -/
structure Product where
  code : Option String := none
  idTag : Option String := none
  product_name_en : Option String := none
  generic_name_en : Option String := none
  generic_name : Option String := none
  product_name_fr : Option String := none
  product_name_de : Option String := none
  product_name_es : Option String := none
  brands : Option String := none
  brands_tags : Option (List String) := none
  food_groups_tags : Option (List String) := none
  food_groups : Option String := none
  quantity : Option String := none
  product_quantity : Option NutrVal := none
  product_quantity_unit : Option String := none
  serving_size : Option String := none
  serving_quantity : Option NutrVal := none
  serving_quantity_unit : Option String := none
  nutrition_data_per : Option String := none
  categories_tags : Option (List String) := none
  main_category_en : Option String := none
  main_category : Option String := none
  categories : Option String := none
  countries_tags : Option (List String) := none
  countries : Option String := none
  nutriments : Option (List (String × NutrVal)) := none
deriving Repr

/-- Dict lookup in a raw nutriments mapping. -/
def nmGet (nm : List (String × NutrVal)) : NutrMap :=
  fun k => (nm.find? fun e => e.1 = k).map fun e => e.2

/-- `pick_name` (lines 198-202): the English product name, trimmed and
whitespace-collapsed; `None` when absent or blank. -/
def pick_name (p : Product) : Option String :=
  match p.product_name_en with
  | some s => if (trimWS s.data).isEmpty then none else some ⟨collapseWS s.data⟩
  | none => none

/-- `norm_key` (lines 205-207): lower-case, runs of non-alphanumerics to single
spaces, strip — i.e. the lower-alphanumeric runs joined by single spaces.
(`lru_cache` on this pure function is semantically transparent.) -/
def norm_key (name : String) : String :=
  ⟨joinSp (runsOf isLowerAlnum (name.data.map lowerC))⟩

/-- `choose_id` (lines 210-215).  The md5 hex digest used for products without
a barcode is not re-implemented: it enters as the function parameter
`digest` (only the barcode branch is exercised in the theorems below). -/
def choose_id (digest : String → String) (p : Product) (name_key : String) : String :=
  let chosen := match p.code with
    | some s => if s = "" then p.idTag else some s
    | none => p.idTag
  match chosen with
  | some s =>
      if (trimWS s.data).isEmpty then "off-" ++ digest name_key
      else "off-" ++ (⟨trimWS s.data⟩ : String)
  | none => "off-" ++ digest name_key

/-- Python `str.title()` (ASCII): upper-case every alphabetic character that
follows a non-alphabetic one, lower-case the rest. -/
def titleGo (prevAlpha : Bool) : List Char → List Char
  | [] => []
  | c :: r =>
      (if isAlphaC c then (if prevAlpha then lowerC c else upperC c) else c) ::
        titleGo (isAlphaC c) r

/-- Python `str.title()` (ASCII). -/
def titleStr (s : String) : String := ⟨titleGo false s.data⟩

/-- Sort strings in Python's `sorted` order (code-point lexicographic). -/
def sortStrings (l : List String) : List String :=
  sortBy (fun a b => ltChars a.data b.data) l

/-- `build_aliases` (lines 218-235): alternate-language and generic names
(whitespace-collapsed), plus the comma-separated brands; the display name is
discarded, aliases shorter than 3 characters are dropped, sorted, first 8. -/
def build_aliases (p : Product) (name : String) : List String :=
  let langVals := [p.generic_name_en, p.generic_name, p.product_name_fr,
    p.product_name_de, p.product_name_es].filterMap fun o =>
      o.map fun s => (⟨collapseWS s.data⟩ : String)
  let brandParts := (splitOnC ',' (p.brands.getD "").data).filterMap fun part =>
    if (trimWS part).isEmpty then none else some (⟨trimWS part⟩ : String)
  let aliases := (dedupFirst (langVals ++ brandParts)).filter fun a => a ≠ name
  (sortStrings (aliases.filter fun a => 3 ≤ a.data.length)).take 8

/-- `extract_brands` (lines 238-253): comma-parts of `brands` plus
`brands_tags` (language prefix dropped, dashes to spaces, title-cased),
sorted, first 5. -/
def extract_brands (p : Product) : List String :=
  let fromRaw := match p.brands with
    | some raw => (splitOnC ',' raw.data).filterMap fun part =>
        if (trimWS part).isEmpty then none else some (⟨trimWS part⟩ : String)
    | none => []
  let fromTags := match p.brands_tags with
    | some tags => tags.map fun tag =>
        if ':' ∈ tag.data then
          titleStr ⟨trimWS ((afterChar ':' tag.data).map
            fun c => if c = '-' then ' ' else c)⟩
        else (⟨trimWS tag.data⟩ : String)
    | none => []
  (sortStrings (dedupFirst (fromRaw ++ fromTags))).take 5

/-- `clean_tag` (lines 256-261): strip, then drop a language prefix. -/
def clean_tag (tag : String) : String :=
  let t := trimWS tag.data
  if ':' ∈ t then ⟨afterChar ':' t⟩ else ⟨t⟩

/-- `extract_food_groups` (lines 264-277): cleaned `food_groups_tags` entries
plus cleaned non-empty comma-parts of `food_groups`, sorted, first 5. -/
def extract_food_groups (p : Product) : List String :=
  let fromTags := match p.food_groups_tags with
    | some tags => tags.map clean_tag
    | none => []
  let fromRaw := match p.food_groups with
    | some raw => (splitOnC ',' raw.data).filterMap fun part =>
        let cl := clean_tag ⟨part⟩
        if cl = "" then none else some cl
    | none => []
  (sortStrings (dedupFirst (fromTags ++ fromRaw))).take 5

/-- The numeric fallback branch of `extract_quantity` (lines 284-289):
`product_quantity` rendered with `%g` (the float formatting enters as the
parameter `fmtG`; no theorem below depends on it) plus the unit. -/
def extract_quantity_num (fmtG : ℚ → String) (p : Product) : Option String :=
  match to_float p.product_quantity with
  | some a =>
      match p.product_quantity_unit with
      | some u =>
          if (trimWS u.data).isEmpty then some (fmtG a)
          else some (fmtG a ++ (⟨trimWS u.data⟩ : String))
      | none => some (fmtG a)
  | none => none

/-- `extract_quantity` (lines 280-290): the quantity text (collapsed), else the
numeric `product_quantity` with its unit. -/
def extract_quantity (fmtG : ℚ → String) (p : Product) : Option String :=
  match p.quantity with
  | some s =>
      if (trimWS s.data).isEmpty then extract_quantity_num fmtG p
      else some ⟨collapseWS s.data⟩
  | none => extract_quantity_num fmtG p

/-- `extract_default_portion` (lines 537-559): serving description, serving
amount/unit pair, package quantity text, package amount/unit pair, in that
order; else the per-100g / per-100ml default according to the basis. -/
def extract_default_portion (p : Product) (basis : String) : Portion :=
  match parse_portion_string p.serving_size "serving" with
  | some por => por
  | none =>
  match convert_amount (to_float p.serving_quantity) p.serving_quantity_unit "serving" with
  | some por => por
  | none =>
  match parse_portion_string p.quantity "package" with
  | some por => por
  | none =>
  match convert_amount (to_float p.product_quantity) p.product_quantity_unit "package" with
  | some por => por
  | none =>
      if basis = "per_100ml" then { unit := "100ml", ml := some 100 }
      else { unit := "100g", grams := some 100 }

/-- `extract_category_candidates` (lines 428-460): `categories_tags` with the
`en:` ones first, then the main-category fields, then the comma-parts of
`categories`, deduplicated keeping first occurrences. -/
def extract_category_candidates (p : Product) : List String :=
  let fromTags := match p.categories_tags with
    | some tags =>
        (tags.filter fun t => ("en:".data).isPrefixOf t.data) ++
          (tags.filter fun t => ¬ ("en:".data).isPrefixOf t.data)
    | none => []
  let mainCats := [p.main_category_en, p.main_category].filterMap fun o =>
    match o with
    | some s => if (trimWS s.data).isEmpty then none else some s
    | none => none
  let fromCats := match p.categories with
    | some s => (splitOnC ',' s.data).filterMap fun part =>
        if (trimWS part).isEmpty then none else some (⟨trimWS part⟩ : String)
    | none => []
  dedupFirst (fromTags ++ mainCats ++ fromCats)

/-- `ALLOWED_COUNTRY_SLUGS` (lines 21-90). -/
def ALLOWED_COUNTRY_SLUGS : List String :=
  ["china", "hong kong", "macao", "macau", "taiwan", "japan", "south korea",
   "republic of korea", "korea republic of", "north korea",
   "democratic people s republic of korea", "brunei", "cambodia", "indonesia",
   "laos", "lao people s democratic republic", "malaysia", "myanmar", "burma",
   "philippines", "singapore", "thailand", "timor leste", "east timor",
   "vietnam", "afghanistan", "bangladesh", "bhutan", "india", "maldives",
   "nepal", "pakistan", "sri lanka", "australia", "new zealand",
   "papua new guinea", "fiji", "solomon islands", "vanuatu", "samoa", "tonga",
   "kiribati", "tuvalu", "palau", "nauru", "marshall islands", "micronesia",
   "federated states of micronesia", "cook islands", "niue", "tokelau",
   "american samoa", "guam", "northern mariana islands", "new caledonia",
   "french polynesia", "wallis and futuna", "pitcairn islands",
   "hong kong sar china", "macau sar china", "hksar china", "xizang", "tibet"]

/-- `ALLOWED_MISC = {"world", "international"}`. -/
def ALLOWED_MISC : List String := ["world", "international"]

/-- `_normalize_country_str` (lines 630-640): strip+lower, drop a language
prefix, underscores and dashes to spaces, non-alphanumerics to spaces,
collapse; empty becomes `None`.  (`lru_cache` is transparent.) -/
def normalizeCountryStr (value : String) : Option String :=
  let slug := (trimWS value.data).map lowerC
  if slug.isEmpty then none else
  let slug := if ':' ∈ slug then afterChar ':' slug else slug
  let slug := slug.map fun c => if c = '_' ∨ c = '-' then ' ' else c
  let slug := subRuns (fun c => ¬ (isLowerAlnum c ∨ isWS c)) slug
  let slug := collapseWS slug
  if slug.isEmpty then none else some ⟨slug⟩

/-- `product_in_allowed_region` (lines 649-672): normalize every country tag
and comma-part; keep the product iff at least one allowed slug appears and no
slug outside the allowed and misc lists does. -/
def product_in_allowed_region (p : Product) : Bool :=
  let fromTags := (p.countries_tags.getD []).filterMap normalizeCountryStr
  let fromRaw := match p.countries with
    | some s => (splitOnC ',' s.data).filterMap fun part => normalizeCountryStr ⟨part⟩
    | none => []
  let countries := dedupFirst (fromTags ++ fromRaw)
  if countries.isEmpty then false
  else
    (countries.any fun c => c ∈ ALLOWED_COUNTRY_SLUGS) &&
      ! (countries.any fun c => c ∉ ALLOWED_COUNTRY_SLUGS ∧ c ∉ ALLOWED_MISC)

/-- The eight canonical nutrient fields of a canonical record (each nullable). -/
structure NutrientsRec where
  energy_kcal : Option ℚ := none
  protein_g : Option ℚ := none
  fat_g : Option ℚ := none
  sat_fat_g : Option ℚ := none
  carb_g : Option ℚ := none
  sugar_g : Option ℚ := none
  fiber_g : Option ℚ := none
  sodium_mg : Option ℚ := none
deriving DecidableEq, Repr

/-- `coverage = sum(v is not None for v in nutrients.values())`. -/
def coverageOf (n : NutrientsRec) : Nat :=
  [n.energy_kcal.isSome, n.protein_g.isSome, n.fat_g.isSome, n.sat_fat_g.isSome,
   n.carb_g.isSome, n.sugar_g.isSome, n.fiber_g.isSome,
   n.sodium_mg.isSome].count true

/-- The canonical record emitted by `extract_record` (lines 612-626);
`components` is always the empty list in the source and is omitted. -/
structure OFFRecord where
  id : String := ""
  name : String := ""
  aliases : List String := []
  category : String := ""
  portion_size : String := "per 100 g"
  basis : String := "per_100g"
  quantity : Option String := none
  brands : List String := []
  food_groups : List String := []
  nutrients : NutrientsRec := {}
  default_portion : Portion := { unit := "100g", grams := some 100 }
  source : String := "OpenFoodFacts"
deriving DecidableEq, Repr

/-- `extract_record` (lines 562-627): region filter, the eight nutrient
coercions, the coverage ≥ 2 hard filter, name and key checks, basis, category
resolution (threading the resolver state), portion, and the record itself.
Returns `none` exactly where the Python returns `None` (the record is
dropped); `digest` and `fmtG` parametrize md5 and `%g` formatting. -/
def extract_record (digest : String → String) (fmtG : ℚ → String)
    (p : Product) (st : RState) : Option (String × OFFRecord × Nat) × RState :=
  if ¬ product_in_allowed_region p then (none, st) else
  let nutr := nmGet (p.nutriments.getD [])
  let nutrients : NutrientsRec :=
    { energy_kcal := energy_from_nutriments nutr
      protein_g := to_float (nutr "proteins_100g")
      fat_g := to_float (nutr "fat_100g")
      sat_fat_g := to_float (nutr "saturated-fat_100g")
      carb_g := to_float (nutr "carbohydrates_100g")
      sugar_g := to_float (nutr "sugars_100g")
      fiber_g := to_float (nutr "fiber_100g")
      sodium_mg := sodium_from_nutriments nutr }
  let coverage := coverageOf nutrients
  if coverage < 2 then (none, st) else
  match pick_name p with
  | none => (none, st)
  | some name =>
  let key := norm_key name
  if key = "" then (none, st) else
  let nb : String := ⟨(trimWS (p.nutrition_data_per.getD "").data).map lowerC⟩
  let portion := if nb = "100ml" then "per 100 ml" else "per 100 g"
  let basis := if nb = "100ml" then "per_100ml" else "per_100g"
  match resolveCat st (extract_category_candidates p) with
  | (none, st') => (none, st')
  | (some category, st') =>
      let record : OFFRecord :=
        { id := choose_id digest p key
          name := name
          aliases := build_aliases p name
          category := category
          portion_size := portion
          basis := basis
          quantity := extract_quantity fmtG p
          brands := extract_brands p
          food_groups := extract_food_groups p
          nutrients := nutrients
          default_portion := extract_default_portion p basis
          source := "OpenFoodFacts" }
      (some (key, record, coverage), st')

/-! ## `clean_name` (`build_nutrition_db.py`, lines 48-77) -/

/-- The apostrophe character (U+0027). -/
def apos : Char := Char.ofNat 39

/-- `STOP_PREFIX` (lines 49-59): the nine anchored brand patterns, each as its
ordered list of literal alternatives (a greedy `('s)?` tries the long form
first; character classes like `[- ]` and `[eé]` expand to both literals). -/
def brandPats : List (List String) :=
  [["pillsbury"], ["kraft foods"], ["george weston"], ["nestle", "nestlé"],
   [⟨"kellogg".data ++ [apos, 's']⟩, "kellogg"], ["general mills"], ["pepsico"],
   ["coca-cola", "coca cola"], [⟨"campbell".data ++ [apos, 's']⟩, "campbell"]]

/-- `DROP_WORDS` (lines 60-65). -/
def DROP_WORDS : List String :=
  ["microwaved", "microwave", "toasted", "frozen", "refrigerated", "dough",
   "ready-to-heat", "artificial", "flavor", "original", "recipe", "coating",
   "for", "dry", "prepared", "instant", "low-fat", "nonfat", "reduced",
   "no-sugar-added", "family", "size", "pack", "bottle", "canned", "percent",
   "%", "oz", "ounce", "fl", "lb", "pouch", "tray"]

/-- The `[,\s]` class following a brand prefix. -/
def isSep (c : Char) : Bool := c = ',' || isWS c

/-- `re.sub(pat + r"[,\s]+", "", n)` for one anchored pattern: try the ordered
alternatives; on a prefix match followed by at least one comma/whitespace,
drop the prefix and the whole greedy separator run (applied at most once,
since `^` anchors the match to the start). -/
def stripPatOnce : List String → List Char → List Char
  | [], n => n
  | a :: as, n =>
      if a.data.isPrefixOf n then
        match n.drop a.data.length with
        | c :: rest =>
            if isSep c then (c :: rest).dropWhile isSep else stripPatOnce as n
        | [] => stripPatOnce as n
      else stripPatOnce as n

/-- The `for pat in STOP_PREFIX` loop (lines 68-69): each of the nine patterns
applied once, in order, to the evolving string. -/
def stripBrands (n : List Char) : List Char :=
  brandPats.foldl (fun cur g => stripPatOnce g cur) n

/-- Does the literal alternative `a` match at the start of `l`, followed by at
least one comma/whitespace separator? -/
def patHit (a : String) (l : List Char) : Bool :=
  a.data.isPrefixOf l &&
    match l.drop a.data.length with
    | c :: _ => isSep c
    | [] => false

/-- Does any brand pattern match at the start (with its separator)?  When this
is false, `stripBrands` leaves the string unchanged. -/
def brandHit (l : List Char) : Bool :=
  brandPats.any fun g => g.any fun a => patHit a l

/-- Position after the first `)` of the list, when there is one
(the end of a `\([^)]*\)` match). -/
def rpSkip : List Char → Option (List Char)
  | [] => none
  | c :: r => if c = ')' then some r else rpSkip r

/-- `re.sub(r"\([^)]*\)", " ", n)`, fuelled: each `(`...first-`)` group becomes
one space; a `(` with no later `)` cannot start a match — and then no later
match exists at all, so the remainder is copied verbatim. -/
def rpGo : Nat → List Char → List Char
  | 0, l => l
  | _ + 1, [] => []
  | f + 1, c :: rest =>
      if c = '(' then
        match rpSkip rest with
        | some r => ' ' :: rpGo f r
        | none => c :: rest
      else c :: rpGo f rest

/-- `re.sub(r"\([^)]*\)", " ", n)`. -/
def rpAux (l : List Char) : List Char := rpGo l.length l

/-- Is there a `(` followed (not necessarily adjacently) by a `)`?  Exactly
when this holds, `\([^)]*\)` has a match. -/
def parenPair (l : List Char) : Bool :=
  (l.dropWhile fun c => decide (c ≠ '(')).any fun c => decide (c = ')')

/-- `re.fullmatch(r"\d+([./]\d+)?", w)`: a pure (possibly fractional/decimal)
number token. -/
def isNumTok (w : List Char) : Bool :=
  let ds := w.takeWhile isDigitC
  let rest := w.dropWhile isDigitC
  (! ds.isEmpty) &&
    match rest with
    | [] => true
    | c :: r => (c = '.' || c = '/') && (! r.isEmpty) && r.all isDigitC

/-- The word filter of `clean_name` (lines 72-76): not a drop word and not a
pure number. -/
def keepTok (w : List Char) : Bool :=
  decide ((⟨w⟩ : String) ∉ DROP_WORDS) && ! isNumTok w

/-- `clean_name` up to the word split (lines 66-71): lower+strip, collapse
whitespace, strip brand prefixes, blank parenthesized substrings, commas to
spaces. -/
def cnBase (l : List Char) : List Char :=
  let n0 := collapseWS (l.map lowerC)
  let n1 := stripBrands n0
  let n2 := rpAux n1
  n2.map fun c => if c = ',' then ' ' else c

/-- The filtered word list of `clean_name` (lines 72-76). -/
def cnWords (l : List Char) : List (List Char) := (wordsOf (cnBase l)).filter keepTok

/-- `clean_name` (lines 48-77) on character lists: the first 4 kept words
joined by spaces, falling back to the processed string when no word is kept.
`max_tokens` defaults to 4 and every call site uses the default. -/
def cleanNameL (l : List Char) : List Char :=
  if (cnWords l).isEmpty then cnBase l else joinSp ((cnWords l).take 4)

/-- `clean_name` (`build_nutrition_db.py` 48-77). -/
def clean_name (s : String) : String := ⟨cleanNameL s.data⟩

/-! ## The reconciliation fold of `process_export`
(`openfoodfacts_to_json.py`, lines 675-698) -/

/-- One extracted result, as returned by `extract_record`: the normalized name
key, the candidate canonical record, and its coverage. -/
structure Extracted where
  key : String
  record : OFFRecord
  cov : Nat
deriving DecidableEq, Repr

/-- The body of the reduction loop (lines 692-695): `records[key] =
(coverage, record)` unless an entry with at least this coverage exists. -/
def updateRecords (st : List (String × Nat × OFFRecord)) (e : Extracted) :
    List (String × Nat × OFFRecord) :=
  match lookupA st e.key with
  | none => st ++ [(e.key, e.cov, e.record)]
  | some (c0, _) => if c0 < e.cov then insertA e.key (e.cov, e.record) st else st

/-- The reconciliation fold of `process_export` over the stream of extracted
results: the `records` dict at the end of the loop. -/
def processRecords (items : List Extracted) : List (String × Nat × OFFRecord) :=
  items.foldl updateRecords []

/-- The same keep-highest / keep-first-on-ties choice as a fold over one key's
group. -/
def selStep (acc : Option (Nat × OFFRecord)) (e : Extracted) : Option (Nat × OFFRecord) :=
  match acc with
  | none => some (e.cov, e.record)
  | some (c0, r0) => if c0 < e.cov then some (e.cov, e.record) else some (c0, r0)

/-- First-maximal-coverage selection over a group of extracted records. -/
def selWin (l : List Extracted) : Option (Nat × OFFRecord) := l.foldl selStep none

/-- The growth order on resolver states that claim C9 asserts each `resolve`
call respects: slug bindings persist unchanged, each category keeps its
accumulated tokens, and registered categories persist. -/
def RStateLe (a b : RState) : Prop :=
  (∀ sl cat, lookupA a.s2c sl = some cat → lookupA b.s2c sl = some cat) ∧
  (∀ cat t, t ∈ catTokensOf a cat → t ∈ catTokensOf b cat) ∧
  (∀ cat, (lookupA a.ctoks cat).isSome → (lookupA b.ctoks cat).isSome)

/-! # Theorems -/

/-! ## C7: unit conversions in nutrient extraction -/

/-- Claim C7: in nutrient extraction, a present kcal field takes priority; with
no kcal field, 1000 kJ yields exactly 1000 × 0.239005736 = 239.005736 kcal; a
present sodium field takes priority; with none, 1 g salt yields exactly
393.66 mg sodium.  The final two conjuncts instantiate both conversions on
concrete nutriment maps. -/
theorem energy_sodium_conversions (m : NutrMap) (v : ℚ) :
    (to_float (m "energy-kcal_100g") = some v → energy_from_nutriments m = some v) ∧
    (to_float (m "energy-kcal_100g") = none → to_float (m "energy-kcal_value") = none →
      to_float (m "energy-kcal") = none → kjLookup m = some 1000 →
      energy_from_nutriments m = some (239005736 / 1000000)) ∧
    (to_float (m "sodium_100g") = some v → sodium_from_nutriments m = some (v * 1000)) ∧
    (to_float (m "sodium_100g") = none → to_float (m "salt_100g") = some 1 →
      sodium_from_nutriments m = some (39366 / 100)) ∧
    energy_from_nutriments
      (fun k => if k = "energy_100g" then some (NutrVal.nnum 1000) else none) =
      some (239005736 / 1000000) ∧
    sodium_from_nutriments
      (fun k => if k = "salt_100g" then some (NutrVal.nnum 1) else none) =
      some (39366 / 100) := by
  have hE : ∀ (mm : NutrMap), to_float (mm "energy-kcal_100g") = none →
      to_float (mm "energy-kcal_value") = none → to_float (mm "energy-kcal") = none →
      kjLookup mm = some 1000 →
      energy_from_nutriments mm = some (239005736 / 1000000) := by
    intro mm h1 h2 h3 h4
    simp only [energy_from_nutriments, h1, h2, h3, h4]
    norm_num
  have hS : ∀ (mm : NutrMap), to_float (mm "sodium_100g") = none →
      to_float (mm "salt_100g") = some 1 →
      sodium_from_nutriments mm = some (39366 / 100) := by
    intro mm h1 h2
    simp only [sodium_from_nutriments, SALT_TO_SODIUM, h1, h2]
    norm_num
  refine ⟨fun h => ?_, hE m, fun h => ?_, hS m, hE _ rfl rfl rfl rfl, hS _ rfl rfl⟩
  · simp only [energy_from_nutriments, h]
  · simp only [sodium_from_nutriments, h]

/-! ## C10: a dangling alias still short-circuits the search -/

/-- Claim C10: when the normalized query hits an alias row whose `food_id`
matches no food, `search_food` returns the empty list — the exact-name and
substring tiers are never consulted (the result is `[]` whatever
`db.foods` contains). -/
theorem search_food_dangling_alias (db : Catalog) (q : String) (limit : Nat)
    (e : String × String)
    (h1 : db.aliasRows.find? (fun r => r.1 = normQuery q) = some e)
    (h2 : db.foods.find? (fun f => f.id = e.2) = none) :
    search_food db q limit = [] := by
  simp only [search_food, h1, h2]

/-- Witness for C10: the alias `waffle → ghost` dangles, and the search returns
nothing even though a food is literally named `waffle`. -/
theorem search_food_dangling_alias_witness :
    search_food
      { foods := [{ id := "f1", name := "waffle", short_name := none }],
        aliasRows := [("waffle", "ghost")] } "waffle" 5 = [] := by
  exact search_food_dangling_alias _ "waffle" 5 ("waffle", "ghost") (by decide) (by decide)

/-! ## C4: tiered search never mixes tiers -/

/-- Claim C4: `search_food` normalizes the query and answers from exactly one
tier: an alias hit returns just the referenced food (at most one row) without
consulting the other tiers; otherwise a non-empty exact tier is returned (up
to `limit`); the substring tier runs only when both earlier tiers produced
nothing. -/
theorem search_food_tier_exclusive (db : Catalog) (q : String) (limit : Nat) :
    (∀ e, db.aliasRows.find? (fun r => r.1 = normQuery q) = some e →
      search_food db q limit =
        (match db.foods.find? (fun f => f.id = e.2) with
         | some f => [f]
         | none => []) ∧
      (search_food db q limit).length ≤ 1) ∧
    (db.aliasRows.find? (fun r => r.1 = normQuery q) = none →
      (exactTier db (normQuery q)).take limit ≠ [] →
      search_food db q limit = (exactTier db (normQuery q)).take limit) ∧
    (db.aliasRows.find? (fun r => r.1 = normQuery q) = none →
      (exactTier db (normQuery q)).take limit = [] →
      search_food db q limit = (substrTier db (normQuery q)).take limit) := by
  refine ⟨fun e he => ?_, fun hn hb => ?_, fun hn hb => ?_⟩
  · constructor
    · simp only [search_food, he]
    · simp only [search_food, he]
      cases db.foods.find? (fun f => f.id = e.2) <;> simp
  · simp only [search_food, hn]
    rw [if_neg (by simpa [List.isEmpty_iff] using hb)]
  · simp only [search_food, hn]
    rw [if_pos (by simpa [List.isEmpty_iff] using hb)]

/-- Witness for C4: with alias `waffle → f2` present, the search returns the
aliased food `f2` although a different food `f1` is named exactly `waffle`. -/
theorem search_food_tier_exclusive_witness :
    search_food
      { foods := [{ id := "f1", name := "waffle", short_name := none },
                  { id := "f2", name := "Waffle House Mix", short_name := none }],
        aliasRows := [("waffle", "f2")] } "waffle" 5 =
      [{ id := "f2", name := "Waffle House Mix", short_name := none }] := by
  have h := (search_food_tier_exclusive
    { foods := [{ id := "f1", name := "waffle", short_name := none },
                { id := "f2", name := "Waffle House Mix", short_name := none }],
      aliasRows := [("waffle", "f2")] } "waffle" 5).1 ("waffle", "f2") (by decide)
  simpa using h.1

/-! ## C3: null coercion and (non-)imputation -/

/-- Counterexample to claim C3: in the USDA converter (`usda_to_json.py`
126-135), a nutrient column absent from the pivoted row is emitted as the
number `0.0` — not as null — because of `float(row.get(key, 0) or 0)`. -/
theorem usda_missing_becomes_zero :
    usdaNutrient (fun _ => none) "protein_g" = UVal.unum 0 := by
  rfl

/-- Claim C3 as amended: `to_float` yields null (never a default zero) for
missing, NaN, or unparseable inputs — a string coerces to a value only by an
actual parse — and the OpenFoodFacts pipeline carries those nulls into the
emitted record's nutrient fields unchanged; the USDA converter, however,
emits `0.0` for every absent nutrient column. -/
theorem to_float_null_propagation :
    to_float none = none ∧
    to_float (some NutrVal.nnan) = none ∧
    to_float (some (NutrVal.nstr "")) = none ∧
    to_float (some (NutrVal.nstr "n/a")) = none ∧
    (∀ s q, to_float (some (NutrVal.nstr s)) = some q →
      parsePyFloat (numFilter (trimWS s.data)) = some q) ∧
    (∀ digest fmtG p st key r cov,
      (extract_record digest fmtG p st).1 = some (key, r, cov) →
      r.nutrients =
        { energy_kcal := energy_from_nutriments (nmGet (p.nutriments.getD []))
          protein_g := to_float (nmGet (p.nutriments.getD []) "proteins_100g")
          fat_g := to_float (nmGet (p.nutriments.getD []) "fat_100g")
          sat_fat_g := to_float (nmGet (p.nutriments.getD []) "saturated-fat_100g")
          carb_g := to_float (nmGet (p.nutriments.getD []) "carbohydrates_100g")
          sugar_g := to_float (nmGet (p.nutriments.getD []) "sugars_100g")
          fiber_g := to_float (nmGet (p.nutriments.getD []) "fiber_100g")
          sodium_mg := sodium_from_nutriments (nmGet (p.nutriments.getD [])) }) ∧
    (∀ key, usdaNutrient (fun _ => none) key = UVal.unum 0) := by
  refine ⟨rfl, rfl, rfl, rfl, fun s q h => ?_, fun digest fmtG p st key r cov h => ?_,
    fun key => rfl⟩
  · simp only [to_float] at h
    split at h
    · exact absurd h (by simp)
    · exact h
  · simp only [extract_record] at h
    split at h
    · exact absurd h (by simp)
    split at h
    · exact absurd h (by simp)
    split at h
    · exact absurd h (by simp)
    split at h
    · exact absurd h (by simp)
    split at h
    · exact absurd h (by simp)
    · simp only [Option.some.injEq, Prod.mk.injEq] at h
      obtain ⟨-, h2, -⟩ := h
      rw [← h2]

/-! ## C8: portion parsing and basis defaults -/

/-- Python `round` fixes integers. -/
theorem halfEven_intCast (z : ℤ) : halfEven (z : ℚ) = z := by
  simp [halfEven, Int.floor_intCast]

/-- `round_amount` fixes integer amounts. -/
theorem round_amount_intCast (z : ℤ) : round_amount (z : ℚ) = z := by
  unfold round_amount round2
  have h1 : ((z : ℚ) * 100) = ((z * 100 : ℤ) : ℚ) := by push_cast; ring
  rw [h1, halfEven_intCast]
  have h2 : ((z * 100 : ℤ) : ℚ) / 100 = (z : ℚ) := by push_cast; ring
  rw [h2]
  simp [halfEven_intCast]

/-- Claim C8: parsing `"1 l"` with default unit label `"package"` yields
`{unit:"package", ml:1000}`; and when all four quantity sources of a record
are absent or unparseable, the default portion is `{unit:"100g", grams:100}`
on a mass basis and `{unit:"100ml", ml:100}` on a volume basis (instantiated
on the all-absent product in the final conjunct). -/
theorem portion_parse_and_defaults :
    parse_portion_string (some "1 l") "package" =
      some { unit := "package", ml := some 1000 } ∧
    (∀ p : Product,
      parse_portion_string p.serving_size "serving" = none →
      convert_amount (to_float p.serving_quantity) p.serving_quantity_unit "serving" = none →
      parse_portion_string p.quantity "package" = none →
      convert_amount (to_float p.product_quantity) p.product_quantity_unit "package" = none →
      extract_default_portion p "per_100g" = { unit := "100g", grams := some 100 } ∧
      extract_default_portion p "per_100ml" = { unit := "100ml", ml := some 100 }) ∧
    extract_default_portion {} "per_100g" = { unit := "100g", grams := some 100 } ∧
    extract_default_portion {} "per_100ml" = { unit := "100ml", ml := some 100 } := by
  refine ⟨?_, fun p h1 h2 h3 h4 => ?_, by rfl, by rfl⟩
  · have key : parse_portion_string (some "1 l") "package" =
        convert_amount (to_float (some (NutrVal.nstr "1"))) (some "l") "package" := by rfl
    have hv : to_float (some (NutrVal.nstr "1")) = some 1 := by rfl
    rw [key, hv]
    have key2 : convert_amount (some (1 : ℚ)) (some "l") "package" =
        (if (1 : ℚ) * 1000 ≤ 0 then none
         else some { unit := "package", ml := some (round_amount ((1 : ℚ) * 1000)) }) := by
      rfl
    rw [key2]
    have h1000 : (1 : ℚ) * 1000 = ((1000 : ℤ) : ℚ) := by norm_num
    rw [h1000, if_neg (by norm_num), round_amount_intCast]
    norm_num
  · constructor
    · simp only [extract_default_portion, h1, h2, h3, h4]
      rfl
    · simp only [extract_default_portion, h1, h2, h3, h4]
      rfl

/-! ## C5: the rule-based classifier -/


theorem mem_tagIf {x name : String} {o : Option ℚ} {thr : ℚ → Prop} [DecidablePred thr] :
    x ∈ tagIf o thr name ↔ x = name ∧ ∃ q, o = some q ∧ thr q := by
  rcases o with _ | q
  · simp [tagIf]
  · simp only [tagIf, Option.some.injEq]
    split_ifs with h <;> simp_all

theorem unkIf_eq_ite (o : Option ℚ) (name : String) :
    unkIf o name = if o = none then [name] else [] := by
  rcases o <;> simp [unkIf]

theorem mem_ite_singleton {x y : String} {c : Prop} [Decidable c] :
    x ∈ (if c then [y] else []) ↔ c ∧ x = y := by
  split_ifs with h <;> simp_all

theorem unbalanced_append (T : List String) :
    (if 2 ≤ T.length then T ++ ["Unbalanced"] else T) =
      T ++ (if 2 ≤ T.length then ["Unbalanced"] else []) := by
  split_ifs <;> simp

theorem classify_eq (n : Nutr8) :
    classify n =
      { tags :=
          baseTags (getNum n.sugar_g) (getNum n.fat_g) (getNum n.fiber_g)
              (getNum n.sodium_mg) ++
            (if 2 ≤ (baseTags (getNum n.sugar_g) (getNum n.fat_g) (getNum n.fiber_g)
                (getNum n.sodium_mg)).length then ["Unbalanced"] else [])
        unknown :=
          unkFields (getNum n.sugar_g) (getNum n.fat_g) (getNum n.fiber_g)
            (getNum n.sodium_mg) } := by
  simp only [classify, baseTags, unkFields, tagIf, unkIf]
  rw [unbalanced_append]

/-- Claim C5: `classify` tags `"High Sugar"` iff sugar > 20, `"High Fat"` iff
fat > 17, `"Low Fiber"` iff fiber < 3, `"High Sodium"` iff sodium > 600; null
(or NaN) fields appear in `unknown` instead of contributing a tag;
`"Unbalanced"` is appended exactly when at least two threshold tags fired;
and the two concrete examples from the spec evaluate as stated. -/
theorem classify_thresholds (n : Nutr8) :
    (("High Sugar" ∈ (classify n).tags) ↔ ∃ q, getNum n.sugar_g = some q ∧ 20 < q) ∧
    (("High Fat" ∈ (classify n).tags) ↔ ∃ q, getNum n.fat_g = some q ∧ 17 < q) ∧
    (("Low Fiber" ∈ (classify n).tags) ↔ ∃ q, getNum n.fiber_g = some q ∧ q < 3) ∧
    (("High Sodium" ∈ (classify n).tags) ↔ ∃ q, getNum n.sodium_mg = some q ∧ 600 < q) ∧
    ((classify n).unknown =
      (if getNum n.sugar_g = none then ["sugar_g"] else []) ++
      (if getNum n.fat_g = none then ["fat_g"] else []) ++
      (if getNum n.fiber_g = none then ["fiber_g"] else []) ++
      (if getNum n.sodium_mg = none then ["sodium_mg"] else [])) ∧
    (("Unbalanced" ∈ (classify n).tags) ↔
      2 ≤ ((classify n).tags.filter fun t => t ≠ "Unbalanced").length) ∧
    classify { sugar_g := NutrVal.nnum 25, fat_g := NutrVal.nnum 20,
               fiber_g := NutrVal.nnum 5, sodium_mg := NutrVal.nnum 100 } =
      { tags := ["High Sugar", "High Fat", "Unbalanced"], unknown := [] } ∧
    classify { sugar_g := NutrVal.nnan, fat_g := NutrVal.nnum 5,
               fiber_g := NutrVal.nnum 5, sodium_mg := NutrVal.nnum 100 } =
      { tags := [], unknown := ["sugar_g"] } := by
  have hUB : ("Unbalanced" : String) ∉
      baseTags (getNum n.sugar_g) (getNum n.fat_g) (getNum n.fiber_g)
        (getNum n.sodium_mg) := by
    simp [baseTags, List.mem_append, mem_tagIf]
  refine ⟨?_, ?_, ?_, ?_, ?_, ?_, ?_, ?_⟩
  · rw [classify_eq]
    simp [baseTags, List.mem_append, mem_tagIf, mem_ite_singleton]
  · rw [classify_eq]
    simp [baseTags, List.mem_append, mem_tagIf, mem_ite_singleton]
  · rw [classify_eq]
    simp [baseTags, List.mem_append, mem_tagIf, mem_ite_singleton]
  · rw [classify_eq]
    simp [baseTags, List.mem_append, mem_tagIf, mem_ite_singleton]
  · rw [classify_eq]
    simp only [unkFields, unkIf_eq_ite, List.append_assoc]
  · rw [classify_eq]
    have hfil : ∀ (c : Prop) [Decidable c],
        ((baseTags (getNum n.sugar_g) (getNum n.fat_g) (getNum n.fiber_g)
            (getNum n.sodium_mg) ++ (if c then ["Unbalanced"] else [])).filter
          fun t => t ≠ "Unbalanced") =
          baseTags (getNum n.sugar_g) (getNum n.fat_g) (getNum n.fiber_g)
            (getNum n.sodium_mg) := by
      intro c hc
      rw [List.filter_append]
      have h1 : (baseTags (getNum n.sugar_g) (getNum n.fat_g) (getNum n.fiber_g)
          (getNum n.sodium_mg)).filter (fun t => t ≠ "Unbalanced") = _ :=
        List.filter_eq_self.mpr fun a ha => by
          simp only [ne_eq, decide_not, Bool.not_eq_eq_eq_not, Bool.not_true,
            decide_eq_false_iff_not]
          intro he
          exact hUB (he ▸ ha)
      rw [h1]
      have h2 : ((if c then ["Unbalanced"] else []).filter fun t => t ≠ "Unbalanced") = [] := by
        split_ifs <;> simp
      rw [h2, List.append_nil]
    simp only
    rw [hfil]
    simp [List.mem_append, hUB, mem_ite_singleton]
  · norm_num [classify, getNum]
  · norm_num [classify, getNum]

/-! ## C6: a record with no resolvable category is dropped -/

/-- Counterexample to claim C6: a product that passes the region filter, has
coverage 2 and a valid name but offers no category candidate is dropped by
`extract_record` (`if not category: return None`, line 607), while the same
product with a resolvable category is kept — so a null category by itself
does cause the record to be dropped, contrary to the claim. -/
theorem category_null_record_dropped :
    (extract_record (fun _ => "") (fun _ => "")
      { code := some "999", product_name_en := some "Plain Tea",
        countries_tags := some ["en:malaysia"],
        nutriments := some [("proteins_100g", NutrVal.nnum 1),
                            ("fat_100g", NutrVal.nnum 2)] } initResolver).1 = none ∧
    ((extract_record (fun _ => "") (fun _ => "")
      { code := some "999", product_name_en := some "Plain Tea",
        countries_tags := some ["en:malaysia"],
        categories_tags := some ["en:beverages"],
        nutriments := some [("proteins_100g", NutrVal.nnum 1),
                            ("fat_100g", NutrVal.nnum 2)] } initResolver).1).isSome = true := by
  exact ⟨rfl, rfl⟩

/-- Claim C6 as amended: when the category resolver returns null for a record's
candidates, `extract_record` drops the record (returns `none`); the pipeline
hard-requires a category, with no configuration to keep such records. -/
theorem category_required_drop (digest : String → String) (fmtG : ℚ → String)
    (p : Product) (st : RState)
    (h : (resolveCat st (extract_category_candidates p)).1 = none) :
    (extract_record digest fmtG p st).1 = none := by
  simp only [extract_record]
  split
  · rfl
  · split
    · rfl
    · split
      · rfl
      · split
        · rfl
        · rcases hr : resolveCat st (extract_category_candidates p) with ⟨oc, st2⟩
          rw [hr] at h
          simp only at h
          subst h
          rfl

/-- Witness for C6's amended theorem: the no-candidate product above resolves
to no category and is dropped. -/
theorem category_required_drop_witness :
    (extract_record (fun _ => "") (fun _ => "")
      { code := some "999", product_name_en := some "Plain Tea",
        countries_tags := some ["en:malaysia"],
        nutriments := some [("proteins_100g", NutrVal.nnum 1),
                            ("fat_100g", NutrVal.nnum 2)] } initResolver).1 = none := by
  exact category_required_drop (fun _ => "") (fun _ => "") _ initResolver rfl

/-! ## C9: resolver state grows monotonically -/

theorem lookupA_insertA_self (l : List (String × α)) (k : String) (v : α) :
    lookupA (insertA k v l) k = some v := by
  induction l with
  | nil => simp [insertA, lookupA]
  | cons hd tl ih =>
      obtain ⟨k0, v0⟩ := hd
      by_cases hk : k0 = k
      · subst hk
        simp [insertA, lookupA]
      · simp only [insertA, if_neg hk]
        simpa [lookupA, List.find?, hk] using ih

theorem lookupA_insertA_ne (l : List (String × α)) (k k' : String) (v : α)
    (h : k' ≠ k) : lookupA (insertA k v l) k' = lookupA l k' := by
  induction l with
  | nil => simp [insertA, lookupA, List.find?, Ne.symm h]
  | cons hd tl ih =>
      obtain ⟨k0, v0⟩ := hd
      by_cases hk : k0 = k
      · subst hk
        simp only [insertA, if_pos rfl]
        simp [lookupA, List.find?, Ne.symm h]
      · simp only [insertA, if_neg hk]
        by_cases hk' : k0 = k'
        · subst hk'
          simp [lookupA, List.find?]
        · simp only [lookupA, List.find?] at ih ⊢
          simp only [show (k0 = k') = False by simp [hk'], decide_False] at ih ⊢
          exact ih

theorem lookupA_updToks (cat : String) (ts : List String)
    (l : List (String × List String)) (k : String) :
    lookupA (updToks cat ts l) k =
      if k = cat then (lookupA l k).map (fun s => unionL s ts) else lookupA l k := by
  induction l with
  | nil => split_ifs <;> simp [updToks, lookupA]
  | cons hd tl ih =>
      obtain ⟨c, s⟩ := hd
      by_cases hc : c = cat
      · subst hc
        by_cases hk : k = c
        · subst hk
          simp [updToks, lookupA, List.find?]
        · simp only [updToks, if_pos rfl]
          simp [lookupA, List.find?, Ne.symm hk, hk]
      · simp only [updToks, if_neg hc]
        by_cases hk : c = k
        · subst hk
          simp [lookupA, List.find?, hc]
        · simp only [lookupA, List.find?] at ih ⊢
          simp only [show (c = k) = False by simp [hk], decide_False] at ih ⊢
          exact ih

theorem mem_unionL_left {x : String} {a : List String} (ts : List String)
    (h : x ∈ a) : x ∈ unionL a ts := by
  induction ts generalizing a with
  | nil => exact h
  | cons t ts ih =>
      simp only [unionL, List.foldl_cons]
      by_cases ht : t ∈ a
      · rw [if_pos ht]
        exact ih h
      · rw [if_neg ht]
        exact ih (List.mem_append_left _ h)

theorem lookupA_append_left {l : List (String × α)} {k : String} {v : α}
    (m : List (String × α)) (h : lookupA l k = some v) :
    lookupA (l ++ m) k = some v := by
  induction l with
  | nil => simp [lookupA, List.find?] at h
  | cons hd tl ih =>
      obtain ⟨k0, v0⟩ := hd
      by_cases hk : k0 = k
      · subst hk
        simp [lookupA, List.find?] at h ⊢
        exact h
      · simp only [lookupA, List.find?, List.cons_append,
          show (k0 = k) = False by simp [hk], decide_False] at h ⊢
        exact ih h

theorem matchLoop_some {st : RState} {slug : String} {ts : List String}
    {core : Option String} {cat : String} {st' : RState} :
    ∀ {entries : List (String × String)},
    matchLoop st slug ts core entries = some (cat, st') →
    st' = { s2c := insertA slug cat st.s2c, ctoks := updToks cat ts st.ctoks } := by
  intro entries
  induction entries with
  | nil => intro h; simp [matchLoop] at h
  | cons hd tl ih =>
      obtain ⟨sl0, cat0⟩ := hd
      intro h
      simp only [matchLoop] at h
      split at h
      · simp only [Option.some.injEq, Prod.mk.injEq] at h
        obtain ⟨hc, hs⟩ := h
        subst hc
        exact hs.symm
      · exact ih h

theorem matchExisting_none {st : RState} {slug : String} {tokens : List String}
    (h : matchExisting st slug tokens = none) : lookupA st.s2c slug = none := by
  simp only [matchExisting] at h
  rcases hl : lookupA st.s2c slug with _ | cat
  · rfl
  · rw [hl] at h
    simp at h

theorem matchExisting_some {st : RState} {slug : String} {tokens : List String}
    {cat : String} {st' : RState}
    (h : matchExisting st slug tokens = some (cat, st')) :
    st' = st ∨
      (lookupA st.s2c slug = none ∧
        st' = { s2c := insertA slug cat st.s2c,
                ctoks := updToks cat (dedupFirst tokens) st.ctoks }) := by
  simp only [matchExisting] at h
  rcases hl : lookupA st.s2c slug with _ | cat0
  · rw [hl] at h
    exact Or.inr ⟨rfl, matchLoop_some h⟩
  · rw [hl] at h
    simp only [Option.some.injEq, Prod.mk.injEq] at h
    exact Or.inl h.2.symm

theorem resolveLoop_some {st : RState} {cat : String} {st' : RState} :
    ∀ {cands : List (String × List String)},
    resolveLoop st cands = some (cat, st') →
    ∃ slug tokens, matchExisting st slug tokens = some (cat, st') := by
  intro cands
  induction cands with
  | nil => intro h; simp [resolveLoop] at h
  | cons hd tl ih =>
      obtain ⟨slug, tokens⟩ := hd
      intro h
      simp only [resolveLoop] at h
      rcases hm : matchExisting st slug tokens with _ | hit
      · rw [hm] at h
        exact ih h
      · rw [hm] at h
        simp only [Option.some.injEq] at h
        exact ⟨slug, tokens, by rw [hm, h]⟩

theorem RStateLe_refl (a : RState) : RStateLe a a :=
  ⟨fun _ _ h => h, fun _ _ h => h, fun _ h => h⟩

theorem RStateLe_trans {a b c : RState} (h1 : RStateLe a b) (h2 : RStateLe b c) :
    RStateLe a c :=
  ⟨fun sl cat h => h2.1 sl cat (h1.1 sl cat h),
   fun cat t h => h2.2.1 cat t (h1.2.1 cat t h),
   fun cat h => h2.2.2 cat (h1.2.2 cat h)⟩

/-- Growing one category's token set (and adding a fresh slug binding) only
grows the state. -/
theorem RStateLe_grow (st : RState) (slug cat : String) (ts : List String)
    (hfresh : lookupA st.s2c slug = none) :
    RStateLe st { s2c := insertA slug cat st.s2c, ctoks := updToks cat ts st.ctoks } := by
  refine ⟨fun sl c h => ?_, fun c t h => ?_, fun c h => ?_⟩
  · have hne : sl ≠ slug := by
      intro he
      rw [he, hfresh] at h
      exact Option.noConfusion h
    rw [lookupA_insertA_ne _ _ _ _ hne]
    exact h
  · simp only [catTokensOf, lookupA_updToks]
    by_cases hc : c = cat
    · subst hc
      rw [if_pos rfl]
      rcases hl : lookupA st.ctoks c with _ | s
      · rw [catTokensOf, hl] at h
        simp at h
      · simp only [Option.map_some', Option.getD_some]
        rw [catTokensOf, hl] at h
        simp only [Option.getD_some] at h
        exact mem_unionL_left ts h
    · rw [if_neg hc]
      exact h
  · simp only [lookupA_updToks]
    by_cases hc : c = cat
    · subst hc
      rw [if_pos rfl]
      rcases hl : lookupA st.ctoks c with _ | s
      · rw [hl] at h
        simp at h
      · simp
    · rw [if_neg hc]
      exact h

/-- `_register_new` only grows the resolver state (for a fresh slug). -/
theorem registerNewCat_mono (st : RState) (slug : String) (tokens : List String)
    (hfresh : lookupA st.s2c slug = none) :
    RStateLe st (registerNewCat st slug tokens).2 := by
  rcases hl : lookupA st.ctoks slug with _ | s0
  · have h2 : (registerNewCat st slug tokens).2 =
        { s2c := insertA slug slug st.s2c,
          ctoks := st.ctoks ++ [(slug, dedupFirst tokens)] } := by
      simp only [registerNewCat, hl]
    rw [h2]
    refine ⟨fun sl c h => ?_, fun c t h => ?_, fun c h => ?_⟩
    · have hne : sl ≠ slug := by
        intro he
        rw [he, hfresh] at h
        exact Option.noConfusion h
      rw [lookupA_insertA_ne _ _ _ _ hne]
      exact h
    · simp only [catTokensOf] at h ⊢
      rcases hlc : lookupA st.ctoks c with _ | sc
      · rw [hlc] at h
        simp at h
      · rw [lookupA_append_left _ hlc]
        rw [hlc] at h
        exact h
    · rcases hlc : lookupA st.ctoks c with _ | sc
      · rw [hlc] at h
        simp at h
      · rw [lookupA_append_left _ hlc]
        simp
  · have h2 : (registerNewCat st slug tokens).2 =
        { s2c := insertA slug slug st.s2c,
          ctoks := updToks slug (dedupFirst tokens) st.ctoks } := by
      simp only [registerNewCat, hl]
    rw [h2]
    exact RStateLe_grow st slug slug (dedupFirst tokens) hfresh

/-- One `resolve` call only grows the resolver state. -/
theorem resolveCat_mono (st : RState) (raws : List String) :
    RStateLe st (resolveCat st raws).2 := by
  rcases hs : sortBy candLt (dedupBySlugGo [] (raws.filterMap candInfo)) with
    _ | ⟨⟨slug0, tokens0⟩, rest⟩
  · have h2 : (resolveCat st raws).2 = st := by
      simp only [resolveCat, hs]
    rw [h2]
    exact RStateLe_refl st
  · rcases hr : resolveLoop st ((slug0, tokens0) :: rest) with _ | ⟨cat, st'⟩
    · have hfresh : lookupA st.s2c slug0 = none := by
        simp only [resolveLoop] at hr
        rcases hm : matchExisting st slug0 tokens0 with _ | hit0
        · exact matchExisting_none hm
        · rw [hm] at hr
          exact absurd hr (by simp)
      have h2 : (resolveCat st raws).2 = (registerNewCat st slug0 tokens0).2 := by
        simp only [resolveCat, hs, hr]
      rw [h2]
      exact registerNewCat_mono st slug0 tokens0 hfresh
    · have h2 : (resolveCat st raws).2 = st' := by
        simp only [resolveCat, hs, hr]
      rw [h2]
      obtain ⟨slug, tokens, hm⟩ := resolveLoop_some hr
      rcases matchExisting_some hm with he | ⟨hfresh, he⟩
      · rw [he]
        exact RStateLe_refl st
      · rw [he]
        exact RStateLe_grow st slug cat (dedupFirst tokens) hfresh

/-- Claim C9: over any sequence of `resolve` calls, the cluster state grows
monotonically — a slug once mapped to a category is never removed or remapped
(conjunct 1, first component), category token sets only gain tokens, the
category set never shrinks, and two slugs mapped to one category never split
(conjunct 2); the final conjunct exercises this concretely from the seeded
state. -/
theorem resolver_state_monotone (calls : List (List String)) (st : RState) :
    RStateLe st (calls.foldl (fun s c => (resolveCat s c).2) st) ∧
    (∀ s1 s2 c, lookupA st.s2c s1 = some c → lookupA st.s2c s2 = some c →
      lookupA (calls.foldl (fun s c => (resolveCat s c).2) st).s2c s1 = some c ∧
      lookupA (calls.foldl (fun s c => (resolveCat s c).2) st).s2c s2 = some c) ∧
    lookupA ((resolveCat initResolver ["en:potato-chips"]).2).s2c "beverage" =
      some "beverage" := by
  have hfold : ∀ (cs : List (List String)) (s0 : RState),
      RStateLe s0 (cs.foldl (fun s c => (resolveCat s c).2) s0) := by
    intro cs
    induction cs with
    | nil => intro s0; exact RStateLe_refl s0
    | cons c cs ih =>
        intro s0
        exact RStateLe_trans (resolveCat_mono s0 c) (ih (resolveCat s0 c).2)
  refine ⟨hfold calls st, fun s1 s2 c h1 h2 => ?_, by decide⟩
  exact ⟨(hfold calls st).1 s1 c h1, (hfold calls st).1 s2 c h2⟩

/-! ## C1: reconciliation keeps the first maximal-coverage member, unmerged -/

theorem lookupA_append_none {l : List (String × α)} {k : String}
    (m : List (String × α)) (h : lookupA l k = none) :
    lookupA (l ++ m) k = lookupA m k := by
  induction l with
  | nil => simp
  | cons hd tl ih =>
      obtain ⟨k0, v0⟩ := hd
      by_cases hk : k0 = k
      · subst hk
        simp [lookupA, List.find?] at h
      · simp only [lookupA, List.find?, List.cons_append,
          show (k0 = k) = False by simp [hk], decide_False] at h ⊢
        exact ih h

/-- One loop iteration updates the entry at `e.key` exactly as the
keep-highest / keep-first fold step does, and leaves other keys alone. -/
theorem lookupA_updateRecords (st : List (String × Nat × OFFRecord)) (e : Extracted)
    (key : String) :
    lookupA (updateRecords st e) key =
      if e.key = key then selStep (lookupA st key) e else lookupA st key := by
  by_cases hk : e.key = key
  · subst hk
    rw [if_pos rfl]
    simp only [updateRecords]
    rcases hl : lookupA st e.key with _ | ⟨c0, r0⟩
    · rw [lookupA_append_none _ hl]
      simp [lookupA, List.find?, selStep, hl]
    · simp only [selStep, hl]
      split_ifs with hc
      · exact lookupA_insertA_self _ _ _
      · exact hl
  · rw [if_neg hk]
    simp only [updateRecords]
    rcases hl : lookupA st e.key with _ | ⟨c0, r0⟩ <;> dsimp only
    · rcases hl2 : lookupA st key with _ | v
      · rw [lookupA_append_none _ hl2]
        simp [lookupA, List.find?, hk]
      · rw [lookupA_append_left _ hl2]
    · split_ifs with hc
      · exact lookupA_insertA_ne _ _ _ _ (fun h => hk h.symm)
      · rfl

/-- The reconciliation dict restricted to one key equals the keep-highest fold
over that key's group, in input order. -/
theorem lookupA_processRecords (items : List Extracted) (key : String) :
    lookupA (processRecords items) key =
      selWin (items.filter fun e => e.key = key) := by
  have gen : ∀ (its : List Extracted) (st : List (String × Nat × OFFRecord)),
      lookupA (its.foldl updateRecords st) key =
        (its.filter fun e => e.key = key).foldl selStep (lookupA st key) := by
    intro its
    induction its with
    | nil => intro st; rfl
    | cons e its ih =>
        intro st
        simp only [List.foldl_cons, List.filter_cons]
        by_cases hk : e.key = key
        · rw [if_pos (by simp [hk])]
          simp only [List.foldl_cons]
          rw [ih, lookupA_updateRecords, if_pos hk]
        · rw [if_neg (by simp [hk])]
          rw [ih, lookupA_updateRecords, if_neg hk]
  have h0 : lookupA ([] : List (String × Nat × OFFRecord)) key = none := rfl
  rw [processRecords, gen items [], h0, selWin]

theorem selStep_isSome (acc : Option (Nat × OFFRecord)) (e : Extracted) :
    (selStep acc e).isSome := by
  rcases acc with _ | ⟨c0, r0⟩ <;> simp only [selStep] <;> first | simp | split_ifs <;> simp

theorem selWin_isSome_of_append (g : List Extracted) (e : Extracted) :
    (selWin (g ++ [e])).isSome := by
  have h : ∀ (l : List Extracted) (acc : Option (Nat × OFFRecord)), acc.isSome →
      (l.foldl selStep acc).isSome := by
    intro l
    induction l with
    | nil => intro acc h; exact h
    | cons x xs ih => intro acc _; exact ih _ (selStep_isSome acc x)
  rcases g with _ | ⟨x, xs⟩
  · simpa [selWin] using selStep_isSome none e
  · simp only [selWin, List.cons_append, List.foldl_cons]
    exact h _ _ (selStep_isSome none x)

/-- What the keep-highest fold selects: a member of the group attaining the
maximal coverage, the first such member in input order. -/
theorem selWin_spec (g : List Extracted) (c : Nat) (r : OFFRecord)
    (h : selWin g = some (c, r)) :
    (∀ e ∈ g, e.cov ≤ c) ∧
    ∃ l1 e0 l2, g = l1 ++ e0 :: l2 ∧ e0.cov = c ∧ e0.record = r ∧
      ∀ x ∈ l1, x.cov < c := by
  induction g using List.reverseRecOn generalizing c r with
  | nil => simp [selWin] at h
  | append_singleton g e ih =>
      have hstep : selWin (g ++ [e]) = selStep (selWin g) e := by
        simp [selWin, List.foldl_append]
      rcases hw : selWin g with _ | ⟨c0, r0⟩
      · have hg : g = [] := by
          rcases g with _ | ⟨x, xs⟩
          · rfl
          · exact absurd hw (by
              have := selWin_isSome_of_append [] x
              rcases hxx : selWin (x :: xs) with _ | y
              · have h2 : ∀ (l : List Extracted) (acc : Option (Nat × OFFRecord)),
                    acc.isSome → (l.foldl selStep acc).isSome := by
                  intro l
                  induction l with
                  | nil => intro acc h; exact h
                  | cons z zs ihz => intro acc _; exact ihz _ (selStep_isSome acc z)
                have h3 : (selWin (x :: xs)).isSome := by
                  simp only [selWin, List.foldl_cons]
                  exact h2 _ _ (selStep_isSome none x)
                rw [hxx] at h3
                simp at h3
              · simp [hxx])
        subst hg
        rw [hstep, hw] at h
        simp only [selStep, Option.some.injEq, Prod.mk.injEq] at h
        obtain ⟨hc, hr⟩ := h
        refine ⟨fun x hx => ?_, [], e, [], by simp, hc, hr, by simp⟩
        simp only [List.nil_append, List.mem_singleton] at hx
        subst hx
        exact hc.le
      · rw [hstep, hw] at h
        obtain ⟨hall, l1, e0, l2, hdec, hc0, hr0, hlt⟩ := ih c0 r0 hw
        simp only [selStep] at h
        split_ifs at h with hcmp
        · simp only [Option.some.injEq, Prod.mk.injEq] at h
          obtain ⟨hc, hr⟩ := h
          refine ⟨fun x hx => ?_, g, e, [], by simp, hc, hr, fun x hx => ?_⟩
          · rcases List.mem_append.mp hx with hx | hx
            · exact le_trans (hall x hx) (le_of_lt (hc ▸ hcmp))
            · simp only [List.mem_singleton] at hx
              subst hx
              exact hc.le
          · exact lt_of_le_of_lt (hall x hx) (hc ▸ hcmp)
        · simp only [Option.some.injEq, Prod.mk.injEq] at h
          obtain ⟨hc, hr⟩ := h
          subst hc
          refine ⟨fun x hx => ?_, l1, e0, l2 ++ [e], by rw [hdec]; simp, hc0, hr ▸ hr0,
            hlt⟩
          rcases List.mem_append.mp hx with hx | hx
          · exact hall x hx
          · simp only [List.mem_singleton] at hx
            subst hx
            exact not_lt.mp hcmp

/-- Claim C1 as amended: for each normalized name key, the reconciliation fold
of `process_export` keeps exactly the group member with the highest coverage
(on ties, the member produced first in input order), and the stored canonical
record — its alias list included — is that winning member's record unchanged;
losing members' alias sets are discarded, not merged. -/
theorem process_export_keeps_first_max (items : List Extracted) (key : String)
    (c : Nat) (r : OFFRecord)
    (h : lookupA (processRecords items) key = some (c, r)) :
    (∀ e ∈ items.filter (fun e => e.key = key), e.cov ≤ c) ∧
    (∃ l1 e0 l2, items.filter (fun e => e.key = key) = l1 ++ e0 :: l2 ∧
      e0.cov = c ∧ e0.record = r ∧ ∀ x ∈ l1, x.cov < c) ∧
    ({ key := key, record := r, cov := c } : Extracted) ∈ items := by
  rw [lookupA_processRecords] at h
  obtain ⟨hall, l1, e0, l2, hdec, hc0, hr0, hlt⟩ := selWin_spec _ _ _ h
  refine ⟨hall, ⟨l1, e0, l2, hdec, hc0, hr0, hlt⟩, ?_⟩
  have he0mem : e0 ∈ items.filter (fun e => e.key = key) := by
    rw [hdec]
    simp
  have hkey : e0.key = key := by
    simpa using (List.mem_filter.mp he0mem).2
  have he : ({ key := key, record := r, cov := c } : Extracted) = e0 := by
    cases e0
    simp_all
  rw [he]
  exact List.mem_of_mem_filter he0mem

/-- Witness for C1's amended theorem: of two extracted records sharing the key
`apple juice` with coverages 3 and 5, the fold keeps the coverage-5 member —
carried whole, its own alias list included. -/
theorem process_export_keeps_first_max_witness :
    ({ key := "apple juice",
       record := { name := "Apple Juice", aliases := ["Jus de Pomme"] },
       cov := 5 } : Extracted) ∈
      [({ key := "apple juice",
          record := { name := "Apple Juice", aliases := ["Apfelsaft"] },
          cov := 3 } : Extracted),
       ({ key := "apple juice",
          record := { name := "Apple Juice", aliases := ["Jus de Pomme"] },
          cov := 5 } : Extracted)] := by
  exact (process_export_keeps_first_max
    [{ key := "apple juice",
       record := { name := "Apple Juice", aliases := ["Apfelsaft"] }, cov := 3 },
     { key := "apple juice",
       record := { name := "Apple Juice", aliases := ["Jus de Pomme"] }, cov := 5 }]
    "apple juice" 5 { name := "Apple Juice", aliases := ["Jus de Pomme"] }
    (by decide)).2.2

/-- Counterexample to claim C1: two extracted records with the same key and
coverages 3 and 5 carry the alias lists `build_aliases` derives for them; the
reconciled entry keeps the coverage-5 record with only its own alias list —
the coverage-3 member's alias `Apfelsaft` is not merged in, so the alias set
is not the union of the group members' alias sets. -/
theorem reconcile_drops_loser_aliases :
    build_aliases { generic_name_en := some "Apfelsaft" } "Apple Juice" =
      ["Apfelsaft"] ∧
    build_aliases { generic_name_en := some "Jus de Pomme" } "Apple Juice" =
      ["Jus de Pomme"] ∧
    lookupA (processRecords
      [{ key := "apple juice",
         record := { name := "Apple Juice",
                     aliases := build_aliases { generic_name_en := some "Apfelsaft" }
                       "Apple Juice" }, cov := 3 },
       { key := "apple juice",
         record := { name := "Apple Juice",
                     aliases := build_aliases { generic_name_en := some "Jus de Pomme" }
                       "Apple Juice" }, cov := 5 }]) "apple juice" =
      some (5, { name := "Apple Juice", aliases := ["Jus de Pomme"] }) ∧
    "Apfelsaft" ∉
      ({ name := "Apple Juice", aliases := ["Jus de Pomme"] } : OFFRecord).aliases := by
  exact ⟨by decide, by decide, by decide, by decide⟩

/-! ## C2: `clean_name` and (non-)idempotence -/

theorem charOfNat_toNat {n : Nat} (h : n.isValidChar) : (Char.ofNat n).toNat = n := by
  rw [Char.ofNat, dif_pos h]
  simp only [Char.ofNatAux, Char.toNat, UInt32.toNat]
  simp [BitVec.toNat_ofNatLt]

theorem lowerC_idem (c : Char) : lowerC (lowerC c) = lowerC c := by
  unfold lowerC
  split_ifs with h1 h2
  · have hv : (c.toNat + 32).isValidChar := by
      left
      omega
    rw [charOfNat_toNat hv] at h2
    omega
  · rfl
  · rfl

theorem lowerC_space : lowerC ' ' = ' ' := by decide

theorem wordsGo_cons_notWS {c : Char} (h : isWS c = false) (cur l : List Char) :
    wordsGo cur (c :: l) = wordsGo (c :: cur) l := by
  simp [wordsGo, h]

theorem wordsGo_word {w : List Char} (hw : ∀ c ∈ w, isWS c = false) :
    ∀ (cur l : List Char), wordsGo cur (w ++ l) = wordsGo (w.reverse ++ cur) l := by
  induction w with
  | nil => intro cur l; simp
  | cons c w ih =>
      intro cur l
      have hc : isWS c = false := hw c (by simp)
      rw [List.cons_append, wordsGo_cons_notWS hc,
        ih (fun x hx => hw x (by simp [hx])) (c :: cur) l]
      simp

theorem wordsGo_space (cur l : List Char) :
    wordsGo cur (' ' :: l) =
      if cur.isEmpty then wordsGo [] l else cur.reverse :: wordsGo [] l := by
  have hws : isWS ' ' = true := by decide
  simp [wordsGo, hws]

/-- Splitting the space-joined words recovers them, provided each word is
non-empty and whitespace-free. -/
theorem wordsOf_joinSp {ws : List (List Char)}
    (h : ∀ w ∈ ws, w ≠ [] ∧ ∀ c ∈ w, isWS c = false) :
    wordsOf (joinSp ws) = ws := by
  induction ws with
  | nil => rfl
  | cons w ws ih =>
      obtain ⟨hne, hws⟩ := h w (by simp)
      rcases ws with _ | ⟨w', ws'⟩
      · show wordsGo [] (joinSp [w]) = [w]
        have hj : joinSp [w] = w ++ [] := by simp [joinSp]
        rw [hj, wordsGo_word hws, wordsGo]
        simp [hne]
      · show wordsGo [] (joinSp (w :: w' :: ws')) = w :: w' :: ws'
        have hj : joinSp (w :: w' :: ws') = w ++ ' ' :: joinSp (w' :: ws') := rfl
        rw [hj, wordsGo_word hws, List.append_nil, wordsGo_space]
        rw [if_neg (by simpa [List.isEmpty_iff] using hne)]
        simp only [List.reverse_reverse]
        rw [show wordsGo [] (joinSp (w' :: ws')) = w' :: ws' from
          ih (fun x hx => h x (by simp [hx]))]

/-- Tokens produced by `wordsGo` are non-empty, whitespace-free, and made of
input (or accumulator) characters. -/
theorem wordsGo_tokens :
    ∀ (l cur : List Char), (∀ c ∈ cur, isWS c = false) →
    ∀ w ∈ wordsGo cur l, w ≠ [] ∧ ∀ c ∈ w, isWS c = false ∧ (c ∈ l ∨ c ∈ cur) := by
  intro l
  induction l with
  | nil =>
      intro cur hcur w hw
      rw [wordsGo] at hw
      by_cases hc : cur = []
      · subst hc
        simp at hw
      · rw [if_neg (by simpa [List.isEmpty_iff] using hc)] at hw
        simp only [List.mem_singleton] at hw
        subst hw
        refine ⟨by simpa using hc, fun c hcm => ?_⟩
        have hcur2 : c ∈ cur := by simpa using hcm
        exact ⟨hcur c hcur2, Or.inr hcur2⟩
  | cons c l ih =>
      intro cur hcur w hw
      rcases hws : isWS c with _ | _
      · rw [wordsGo, hws] at hw
        simp only [Bool.false_eq_true, if_false] at hw
        obtain ⟨hne, hprop⟩ := ih (c :: cur)
          (fun x hx => by
            rcases List.mem_cons.mp hx with hx | hx
            · subst hx; exact hws
            · exact hcur x hx) w hw
        refine ⟨hne, fun x hx => ?_⟩
        obtain ⟨h1, h2⟩ := hprop x hx
        refine ⟨h1, ?_⟩
        rcases h2 with h2 | h2
        · exact Or.inl (by simp [h2])
        · rcases List.mem_cons.mp h2 with h2 | h2
          · exact Or.inl (by simp [h2])
          · exact Or.inr h2
      · rw [wordsGo, hws] at hw
        simp only [if_true] at hw
        rcases hc : cur.isEmpty with _ | _
        · rw [hc] at hw
          simp only [Bool.false_eq_true, if_false] at hw
          rcases List.mem_cons.mp hw with hw | hw
          · subst hw
            have hne : cur ≠ [] := by
              intro he
              rw [he] at hc
              simp at hc
            refine ⟨by simpa using hne, fun x hx => ?_⟩
            have hxcur : x ∈ cur := by simpa using hx
            exact ⟨hcur x hxcur, Or.inr hxcur⟩
          · obtain ⟨hne, hprop⟩ := ih [] (by simp) w hw
            refine ⟨hne, fun x hx => ?_⟩
            obtain ⟨h1, h2⟩ := hprop x hx
            exact ⟨h1, Or.inl (by simp [h2.resolve_right (by simp)])⟩
        · rw [hc] at hw
          simp only [if_true] at hw
          obtain ⟨hne, hprop⟩ := ih [] (by simp) w hw
          refine ⟨hne, fun x hx => ?_⟩
          obtain ⟨h1, h2⟩ := hprop x hx
          exact ⟨h1, Or.inl (by simp [h2.resolve_right (by simp)])⟩

/-- Characters of space-joined words come from the words or are spaces. -/
theorem joinSp_chars {c : Char} :
    ∀ {ws : List (List Char)}, c ∈ joinSp ws → (∃ w ∈ ws, c ∈ w) ∨ c = ' ' := by
  intro ws
  induction ws with
  | nil => intro h; simp [joinSp] at h
  | cons w ws ih =>
      intro h
      rcases ws with _ | ⟨w', ws'⟩
      · exact Or.inl ⟨w, by simp, by simpa [joinSp] using h⟩
      · have hj : joinSp (w :: w' :: ws') = w ++ ' ' :: joinSp (w' :: ws') := rfl
        rw [hj] at h
        rcases List.mem_append.mp h with h | h
        · exact Or.inl ⟨w, by simp, h⟩
        · rcases List.mem_cons.mp h with h | h
          · exact Or.inr h
          · rcases ih h with ⟨w2, hw2, hc2⟩ | h2
            · exact Or.inl ⟨w2, by simp [hw2], hc2⟩
            · exact Or.inr h2

/-- Characters survive `collapseWS` only from the input or as spaces. -/
theorem collapseWS_chars {c : Char} {l : List Char} (h : c ∈ collapseWS l) :
    c ∈ l ∨ c = ' ' := by
  rcases joinSp_chars h with ⟨w, hw, hc⟩ | h2
  · obtain ⟨-, hprop⟩ := wordsGo_tokens l [] (by simp) w hw
    rcases (hprop c hc).2 with h3 | h3
    · exact Or.inl h3
    · simp at h3
  · exact Or.inr h2

theorem stripPatOnce_id {l : List Char} :
    ∀ {g : List String}, (∀ a ∈ g, patHit a l = false) → stripPatOnce g l = l := by
  intro g
  induction g with
  | nil => intro _; rfl
  | cons a g ih =>
      intro h
      have ha : patHit a l = false := h a (by simp)
      rw [stripPatOnce]
      split
      · rename_i hpre
        split
        · rename_i c rest hdrop
          split
          · rename_i hsep
            rw [patHit, hpre, hdrop] at ha
            simp [hsep] at ha
          · exact ih fun x hx => h x (by simp [hx])
        · exact ih fun x hx => h x (by simp [hx])
      · exact ih fun x hx => h x (by simp [hx])

theorem stripBrands_id {l : List Char} (h : brandHit l = false) :
    stripBrands l = l := by
  have hall : ∀ g ∈ brandPats, ∀ a ∈ g, patHit a l = false := by
    intro g hg a ha
    have h1 : (g.any fun a => patHit a l) = false :=
      Bool.eq_false_iff.mpr (List.any_eq_false.mp h g hg)
    exact Bool.eq_false_iff.mpr (List.any_eq_false.mp h1 a ha)
  have gen : ∀ (pats : List (List String)), (∀ g ∈ pats, ∀ a ∈ g, patHit a l = false) →
      pats.foldl (fun cur g => stripPatOnce g cur) l = l := by
    intro pats
    induction pats with
    | nil => intro _; rfl
    | cons g pats ih =>
        intro hp
        simp only [List.foldl_cons]
        rw [stripPatOnce_id fun a ha => hp g (by simp) a ha]
        exact ih fun g2 hg2 a ha => hp g2 (by simp [hg2]) a ha
  exact gen brandPats hall

theorem stripPatOnce_chars {c : Char} :
    ∀ {g : List String} {l : List Char}, c ∈ stripPatOnce g l → c ∈ l := by
  intro g
  induction g with
  | nil => intro l h; exact h
  | cons a g ih =>
      intro l h
      rw [stripPatOnce] at h
      split at h
      · split at h
        · rename_i cd rest hdrop
          split at h
          · have hsub : cd :: rest = l.drop a.data.length := hdrop.symm
            have h2 : c ∈ (cd :: rest).dropWhile isSep := h
            have h3 : c ∈ cd :: rest := ((List.dropWhile_sublist _).mem h2)
            rw [hsub] at h3
            exact (List.drop_sublist _ _).mem h3
          · exact ih h
        · exact ih h
      · exact ih h

theorem stripBrands_chars {c : Char} {l : List Char} (h : c ∈ stripBrands l) : c ∈ l := by
  have gen : ∀ (pats : List (List String)) (l0 : List Char),
      c ∈ pats.foldl (fun cur g => stripPatOnce g cur) l0 → c ∈ l0 := by
    intro pats
    induction pats with
    | nil => intro l0 h0; exact h0
    | cons g pats ih =>
        intro l0 h0
        simp only [List.foldl_cons] at h0
        exact stripPatOnce_chars (ih _ h0)
  exact gen brandPats l h

theorem rpSkip_none {l : List Char} (h : (')' : Char) ∉ l) : rpSkip l = none := by
  induction l with
  | nil => rfl
  | cons c r ih =>
      rw [rpSkip]
      simp only [List.mem_cons, not_or] at h
      rw [if_neg fun hh => h.1 hh.symm]
      exact ih h.2

theorem rpSkip_chars {c : Char} :
    ∀ {l r : List Char}, rpSkip l = some r → c ∈ r → c ∈ l := by
  intro l
  induction l with
  | nil => intro r h; simp [rpSkip] at h
  | cons d ds ih =>
      intro r h hc
      rw [rpSkip] at h
      split_ifs at h with hd
      · simp only [Option.some.injEq] at h
        subst h
        exact List.mem_cons_of_mem _ hc
      · exact List.mem_cons_of_mem _ (ih h hc)

theorem rpGo_id {f : Nat} :
    ∀ {l : List Char}, parenPair l = false → rpGo f l = l := by
  induction f with
  | zero => intro l _; rfl
  | succ f ih =>
      intro l h
      rcases l with _ | ⟨c, rest⟩
      · rfl
      · rw [rpGo]
        by_cases hc : c = '('
        · subst hc
          have hnp : (')' : Char) ∉ '(' :: rest := by
            rw [parenPair] at h
            rw [List.dropWhile_cons] at h
            simp only [ne_eq, not_true_eq_false, decide_False, Bool.false_eq_true,
              if_false] at h
            intro hmem
            have := List.any_eq_false.mp h ')' hmem
            simp at this
          have : rpSkip rest = none := rpSkip_none (fun hm => hnp (by simp [hm]))
          rw [if_pos rfl, this]
        · rw [if_neg hc]
          have h2 : parenPair rest = false := by
            rw [parenPair] at h ⊢
            rw [List.dropWhile_cons] at h
            simp only [ne_eq, hc, not_false_eq_true, decide_True, if_true] at h
            exact h
          rw [ih h2]

theorem rpAux_id {l : List Char} (h : parenPair l = false) : rpAux l = l := rpGo_id h

theorem rpGo_chars {c : Char} :
    ∀ (f : Nat) {l : List Char}, c ∈ rpGo f l → c ∈ l ∨ c = ' ' := by
  intro f
  induction f with
  | zero => intro l h; exact Or.inl h
  | succ f ih =>
      intro l h
      rcases l with _ | ⟨d, rest⟩
      · simp [rpGo] at h
      · rw [rpGo] at h
        split_ifs at h with hd
        · subst hd
          rcases hskip : rpSkip rest with _ | r
          · rw [hskip] at h
            exact Or.inl h
          · rw [hskip] at h
            rcases List.mem_cons.mp h with h | h
            · exact Or.inr h
            · rcases ih h with h2 | h2
              · exact Or.inl (List.mem_cons_of_mem _ (rpSkip_chars hskip h2))
              · exact Or.inr h2
        · rcases List.mem_cons.mp h with h | h
          · exact Or.inl (by simp [h])
          · rcases ih h with h2 | h2
            · exact Or.inl (List.mem_cons_of_mem _ h2)
            · exact Or.inr h2

theorem map_id_of_fixed {f : Char → Char} :
    ∀ {l : List Char}, (∀ c ∈ l, f c = c) → l.map f = l := by
  intro l
  induction l with
  | nil => intro _; rfl
  | cons c l ih =>
      intro h
      simp only [List.map_cons]
      rw [h c (by simp), ih fun x hx => h x (by simp [hx])]

/-- All characters of `cnBase` are `lowerC`-fixed. -/
theorem cnBase_lower_fixed {s : List Char} {c : Char} (h : c ∈ cnBase s) :
    lowerC c = c := by
  have h0 : ∀ x ∈ s.map lowerC, lowerC x = x := by
    intro x hx
    obtain ⟨y, -, rfl⟩ := List.mem_map.mp hx
    exact lowerC_idem y
  have h1 : ∀ x ∈ collapseWS (s.map lowerC), lowerC x = x := by
    intro x hx
    rcases collapseWS_chars hx with h2 | h2
    · exact h0 x h2
    · rw [h2]; exact lowerC_space
  have h2 : ∀ x ∈ stripBrands (collapseWS (s.map lowerC)), lowerC x = x :=
    fun x hx => h1 x (stripBrands_chars hx)
  have h3 : ∀ x ∈ rpAux (stripBrands (collapseWS (s.map lowerC))), lowerC x = x := by
    intro x hx
    rcases rpGo_chars _ hx with h4 | h4
    · exact h2 x h4
    · rw [h4]; exact lowerC_space
  simp only [cnBase] at h
  obtain ⟨y, hy, rfl⟩ := List.mem_map.mp h
  by_cases hc : y = ','
  · simp [hc, lowerC_space]
  · simp only [if_neg hc]
    exact h3 y hy

/-- `cnBase` output contains no commas. -/
theorem cnBase_no_comma {s : List Char} {c : Char} (h : c ∈ cnBase s) : c ≠ ',' := by
  simp only [cnBase] at h
  obtain ⟨y, -, rfl⟩ := List.mem_map.mp h
  by_cases hc : y = ','
  · simp [hc]
  · simp [hc]

/-- Counterexample to claim C2: `clean_name` is not idempotent on every
non-empty input.  On `"frozen,"` every word is dropped, so the fallback
returns the processed string `"frozen "` with its comma-turned-space; a
second cleaning collapses it to `"frozen"`. -/
theorem clean_name_not_idempotent :
    ("frozen," : String) ≠ "" ∧
    clean_name (clean_name "frozen,") ≠ clean_name "frozen," := by
  exact ⟨by decide, by decide⟩

/-- Claim C2 as amended: `clean_name` is idempotent on every input whose
cleaning keeps at least one word (the non-fallback case), provided no brand
prefix matches at the start of the cleaned result and no `(` in it is
followed by a `)`.  (The counterexample shows the fallback case can retain
raw whitespace; repeated brand prefixes break the other case.) -/
theorem clean_name_idem_amended (s : String)
    (h1 : cnWords s.data ≠ [])
    (h2 : brandHit (cleanNameL s.data) = false)
    (h3 : parenPair (cleanNameL s.data) = false) :
    clean_name (clean_name s) = clean_name s := by
  have ho : cleanNameL s.data = joinSp ((cnWords s.data).take 4) := by
    rw [cleanNameL, if_neg (by simpa [List.isEmpty_iff] using h1)]
  rw [ho] at h2 h3
  have hkeepGood : ∀ w ∈ (cnWords s.data).take 4,
      (w ≠ [] ∧ ∀ c ∈ w, isWS c = false) ∧
        (∀ c ∈ w, c ∈ cnBase s.data) ∧ keepTok w = true := by
    intro w hw
    have hw1 : w ∈ cnWords s.data := List.mem_of_mem_take hw
    have hw2 := List.mem_filter.mp (show w ∈ (wordsOf (cnBase s.data)).filter keepTok
      from hw1)
    obtain ⟨hne, hprop⟩ := wordsGo_tokens (cnBase s.data) [] (by simp) w hw2.1
    exact ⟨⟨hne, fun c hc => (hprop c hc).1⟩,
      fun c hc => ((hprop c hc).2).resolve_right (by simp), hw2.2⟩
  have hksne : (cnWords s.data).take 4 ≠ [] := by
    intro he
    rcases List.take_eq_nil_iff.mp he with he | he
    · exact absurd he (by norm_num)
    · exact h1 he
  have htok : ∀ w ∈ (cnWords s.data).take 4, w ≠ [] ∧ ∀ c ∈ w, isWS c = false :=
    fun w hw => (hkeepGood w hw).1
  have hw : wordsOf (joinSp ((cnWords s.data).take 4)) = (cnWords s.data).take 4 :=
    wordsOf_joinSp htok
  have hoChars : ∀ c ∈ joinSp ((cnWords s.data).take 4), lowerC c = c ∧ c ≠ ',' := by
    intro c hc
    rcases joinSp_chars hc with ⟨w, hwks, hcw⟩ | hsp
    · have hcb : c ∈ cnBase s.data := (hkeepGood w hwks).2.1 c hcw
      exact ⟨cnBase_lower_fixed hcb, cnBase_no_comma hcb⟩
    · subst hsp
      exact ⟨lowerC_space, by decide⟩
  have hcb_o : cnBase (joinSp ((cnWords s.data).take 4)) =
      joinSp ((cnWords s.data).take 4) := by
    simp only [cnBase]
    rw [map_id_of_fixed fun c hc => (hoChars c hc).1]
    rw [show collapseWS (joinSp ((cnWords s.data).take 4)) =
      joinSp ((cnWords s.data).take 4) from by rw [collapseWS, hw]]
    rw [stripBrands_id h2, rpAux_id h3]
    exact map_id_of_fixed fun c hc => by simp [(hoChars c hc).2]
  have hcw_o : cnWords (joinSp ((cnWords s.data).take 4)) = (cnWords s.data).take 4 := by
    show (wordsOf (cnBase (joinSp ((cnWords s.data).take 4)))).filter keepTok = _
    rw [hcb_o, hw]
    exact List.filter_eq_self.mpr fun w hw2 => (hkeepGood w hw2).2.2
  have hfinal : cleanNameL (joinSp ((cnWords s.data).take 4)) =
      joinSp ((cnWords s.data).take 4) := by
    rw [cleanNameL, if_neg (by simpa [List.isEmpty_iff, hcw_o] using hksne), hcw_o]
    rw [show ((cnWords s.data).take 4).take 4 = (cnWords s.data).take 4 from by
      rw [List.take_take]
      norm_num]
  have hmain : cleanNameL (cleanNameL s.data) = cleanNameL s.data := by
    rw [ho]
    exact hfinal
  simp only [clean_name]
  exact congrArg String.mk hmain

/-- Witness for C2's amended theorem: a four-word name cleans to itself and a
second cleaning is a no-op. -/
theorem clean_name_idem_amended_witness :
    clean_name (clean_name "apple juice drink mix") = clean_name "apple juice drink mix" := by
  exact clean_name_idem_amended "apple juice drink mix" (by decide) (by decide) (by decide)
